import Mathlib

/-!
Verification development for the two-adic FRI polynomial commitment scheme
(`src/fri/src/two_adic_pcs.rs`).

The embedding below translates the source file's operations into Lean:

* `commitShiftedBatches` / `commitBatches` embed the commit path
  (`commit_shifted_batches`, lines 117-137, and `commit_batches`, lines 79-81);
  the external vector-commitment engine (`mmcs.commit`) is modelled as the
  identity on the list of matrices actually handed to it, since the claims
  are about which matrices get committed.
* `openMultiBatches` embeds `open_multi_batches` (lines 151-293) as an
  `Option`-valued state-passing fold; `none` models a Rust panic
  (out-of-bounds indexing, `log2_strict_usize` on a non-power-of-two,
  `unwrap` of an empty maximum).
* `verifyMultiBatches` embeds the `verify_multi_batches` stub (lines 295-305).
* `growCache` / `getCachedPowers` embed `get_cached_powers` (lines 308-313),
  with an explicit fuel equal to the number of loop iterations
  (`count - cache.len()`), which the Rust `while` loop performs exactly.

External collaborators that live in this repository but outside the given
source file are modelled from the spec where the claims require their
behavior, each marked `Modelled from the spec:` in its doc comment.

Machine integers (`usize`) are modelled as `ℕ`: all arithmetic on them in the
source (`<<`, `>>`, `+`, `max`) stays far below 2^64 for the heights the code
supports, so no wrap-around is observable.  The base field `Val` and the
extension field `FC::Challenge` are both modelled by a single field `F`
(instantiating the extension trivially); `from_base` becomes the identity.
-/

/-! ### Bit reversal

`reverse_slice_index_bits` and `BitReversedMatrixView` (p3_util / p3_matrix)
reindex a power-of-two-sized sequence by reversing the binary representation
of each index.  `bitrev k i` reverses the low `k` bits of `i`. -/

/-- Reverse the low `k` bits of `i` (bits of `i` above position `k` are
dropped). -/
def bitrev : ℕ → ℕ → ℕ
  | 0, _ => 0
  | k + 1, i => bitrev k (i / 2) + i % 2 * 2 ^ k

theorem bitrev_zero (k : ℕ) : bitrev k 0 = 0 := by
  induction k with
  | zero => rfl
  | succ k ih => simp [bitrev, ih]

theorem bitrev_lt (k i : ℕ) : bitrev k i < 2 ^ k := by
  induction k generalizing i with
  | zero => simp [bitrev]
  | succ k ih =>
    have h2 : i % 2 < 2 := Nat.mod_lt _ (by norm_num)
    have := ih (i / 2)
    calc bitrev k (i / 2) + i % 2 * 2 ^ k
        < 2 ^ k + i % 2 * 2 ^ k := by omega
      _ ≤ 2 ^ k + 1 * 2 ^ k := by
          have : i % 2 ≤ 1 := by omega
          exact Nat.add_le_add_left (Nat.mul_le_mul_right _ this) _
      _ = 2 ^ (k + 1) := by ring

/-- Padding the width with `d` unused high bits multiplies the reversal by
`2 ^ d`: the low `k` bits of `i` land in the top `k` positions. -/
theorem bitrev_add_of_lt (h d i : ℕ) (hi : i < 2 ^ h) :
    bitrev (h + d) i = bitrev h i * 2 ^ d := by
  induction h generalizing i d with
  | zero =>
    interval_cases i
    simp [bitrev_zero]
  | succ h ih =>
    have hdiv : i / 2 < 2 ^ h := by
      have : i < 2 ^ h * 2 := by
        have : 2 ^ (h + 1) = 2 ^ h * 2 := by ring
        omega
      omega
    have hstep : h + 1 + d = (h + d) + 1 := by omega
    rw [hstep]
    show bitrev (h + d) (i / 2) + i % 2 * 2 ^ (h + d) = bitrev (h + 1) i * 2 ^ d
    rw [ih d (i / 2) hdiv]
    show bitrev h (i / 2) * 2 ^ d + i % 2 * 2 ^ (h + d)
        = (bitrev h (i / 2) + i % 2 * 2 ^ h) * 2 ^ d
    ring

/-- Unfold `bitrev` at the top bit instead of the bottom one. -/
theorem bitrev_succ_top (k i : ℕ) (hi : i < 2 ^ (k + 1)) :
    bitrev (k + 1) i = 2 * bitrev k (i % 2 ^ k) + i / 2 ^ k := by
  induction k generalizing i with
  | zero =>
    show bitrev 0 (i / 2) + i % 2 * 2 ^ 0 = 2 * bitrev 0 (i % 1) + i / 1
    simp [bitrev]
    omega
  | succ k ih =>
    have hdiv : i / 2 < 2 ^ (k + 1) := by
      have : 2 ^ (k + 1 + 1) = 2 ^ (k + 1) * 2 := by ring
      omega
    show bitrev (k + 1) (i / 2) + i % 2 * 2 ^ (k + 1)
        = 2 * bitrev (k + 1) (i % 2 ^ (k + 1)) + i / 2 ^ (k + 1)
    rw [ih (i / 2) hdiv]
    show 2 * bitrev k (i / 2 % 2 ^ k) + i / 2 / 2 ^ k + i % 2 * 2 ^ (k + 1)
        = 2 * (bitrev k (i % 2 ^ (k + 1) / 2) + i % 2 ^ (k + 1) % 2 * 2 ^ k)
          + i / 2 ^ (k + 1)
    have e1 : i % 2 ^ (k + 1) / 2 = i / 2 % 2 ^ k := by
      have : (2 : ℕ) ^ (k + 1) = 2 * 2 ^ k := by ring
      rw [this, Nat.mod_mul_right_div_self]
    have e2 : i % 2 ^ (k + 1) % 2 = i % 2 :=
      Nat.mod_mod_of_dvd i (dvd_pow_self 2 (Nat.succ_ne_zero k))
    have e3 : i / 2 / 2 ^ k = i / 2 ^ (k + 1) := by
      rw [Nat.div_div_eq_div_mul]
      congr 1
      ring
    rw [e1, e2, e3]
    ring

/-- The map `bitrev k` is an involution on `[0, 2^k)`. -/
theorem bitrev_bitrev (k i : ℕ) (hi : i < 2 ^ k) : bitrev k (bitrev k i) = i := by
  induction k generalizing i with
  | zero =>
    interval_cases i
    rfl
  | succ k ih =>
    have hb : bitrev k (i / 2) < 2 ^ k := bitrev_lt _ _
    have h2 : i % 2 < 2 := Nat.mod_lt _ (by norm_num)
    have hlt : bitrev (k + 1) i < 2 ^ (k + 1) := bitrev_lt _ _
    rw [show bitrev (k + 1) i = bitrev k (i / 2) + i % 2 * 2 ^ k from rfl]
    rw [bitrev_succ_top k _ (by
      calc bitrev k (i / 2) + i % 2 * 2 ^ k < 2 ^ k + i % 2 * 2 ^ k := by omega
        _ ≤ 2 ^ k + 1 * 2 ^ k := Nat.add_le_add_left (Nat.mul_le_mul_right _ (by omega)) _
        _ = 2 ^ (k + 1) := by ring)]
    have emod : (bitrev k (i / 2) + i % 2 * 2 ^ k) % 2 ^ k = bitrev k (i / 2) := by
      rw [Nat.add_mul_mod_self_right, Nat.mod_eq_of_lt hb]
    have ediv : (bitrev k (i / 2) + i % 2 * 2 ^ k) / 2 ^ k = i % 2 := by
      rw [Nat.add_mul_div_right _ _ (Nat.pos_pow_of_pos k (by norm_num)),
        Nat.div_eq_of_lt hb, Nat.zero_add]
    rw [emod, ediv]
    have hdiv : i / 2 < 2 ^ k := by
      have : 2 ^ (k + 1) = 2 ^ k * 2 := by ring
      omega
    rw [ih (i / 2) hdiv]
    omega

/-- Composing the small reversal with the large one recovers the stride:
for `i < 2^k` and `k ≤ K`, `bitrev K (bitrev k i) = i * 2^(K - k)`.  This is
why the first `2^k` rows of the bit-reversed height-`2^K` LDE, re-viewed in
bit-reversed order, are exactly the rows of the natural-order LDE at stride
`2^(K-k)`. -/
theorem bitrev_bitrev_of_le (k K i : ℕ) (hkK : k ≤ K) (hi : i < 2 ^ k) :
    bitrev K (bitrev k i) = i * 2 ^ (K - k) := by
  have h1 : K = k + (K - k) := by omega
  rw [h1, bitrev_add_of_lt k (K - k) _ (bitrev_lt k i), bitrev_bitrev k i hi]
  congr 2
  omega

/-! ### Kernel-reducible binary logarithm

`log2_strict_usize` needs an exact base-2 logarithm; we define it by
structural recursion on a fuel argument (one unit per halving, `n` units
suffice) so that concrete instances evaluate, and prove it equal to
`Nat.log2`. -/

def log2go : ℕ → ℕ → ℕ
  | 0, _ => 0
  | fuel + 1, n => if 2 ≤ n then log2go fuel (n / 2) + 1 else 0

def log2n (n : ℕ) : ℕ := log2go n n

theorem log2go_eq (fuel : ℕ) : ∀ n, n ≤ fuel → log2go fuel n = Nat.log2 n := by
  induction fuel with
  | zero =>
    intro n hn
    interval_cases n
    simp [log2go, Nat.log2]
  | succ fuel ih =>
    intro n hn
    by_cases h2 : 2 ≤ n
    · rw [log2go, if_pos h2, ih (n / 2) (by omega)]
      conv_rhs => rw [Nat.log2]
      rw [if_pos h2]
    · rw [log2go, if_neg h2]
      conv_rhs => rw [Nat.log2]
      rw [if_neg h2]

theorem log2n_eq (n : ℕ) : log2n n = Nat.log2 n := log2go_eq n n (le_refl n)

/-! ### Naive Lagrange evaluation

`lagrangeEval n x y z` is the direct Lagrange-interpolation evaluation
`Σ_{i<n} y i · Π_{j≠i} (z - x j) / (x i - x j)`: the spec's "independent
(e.g. naive Lagrange) interpolation".  It is also the formula we use,
`Modelled from the spec:`, for the external `interpolate_coset`
(p3_interpolation, not under `src/`): the spec (§4.2 step 3, §6) specifies it
only as "evaluate every column of that sub-table at `z`", i.e. as evaluation
of the column's unique low-degree interpolant. -/

def lagrangeEval {F : Type} [Field F] (n : ℕ) (x y : ℕ → F) (z : F) : F :=
  ∑ i ∈ Finset.range n, y i * ∏ j ∈ (Finset.range n).erase i, ((z - x j) * (x i - x j)⁻¹)

theorem lagrangeEval_eq_interpolate {F : Type} [Field F] (n : ℕ) (x y : ℕ → F) (z : F) :
    lagrangeEval n x y z = (Lagrange.interpolate (Finset.range n) x y).eval z := by
  rw [lagrangeEval, Lagrange.interpolate_apply, Polynomial.eval_finset_sum]
  refine Finset.sum_congr rfl fun i _ => ?_
  rw [Polynomial.eval_mul, Polynomial.eval_C, Lagrange.basis, Polynomial.eval_prod]
  congr 1
  refine Finset.prod_congr rfl fun j _ => ?_
  rw [Lagrange.basisDivisor, Polynomial.eval_mul, Polynomial.eval_C, Polynomial.eval_sub,
    Polynomial.eval_X, Polynomial.eval_C]
  ring

/-- Evaluating the naive Lagrange formula on samples of a polynomial `p` of
degree `< n` over `n` distinct nodes recovers `p` everywhere. -/
theorem lagrangeEval_eval_poly {F : Type} [Field F] (n : ℕ) (x : ℕ → F) (p : Polynomial F)
    (hinj : ∀ i ∈ Finset.range n, ∀ j ∈ Finset.range n, x i = x j → i = j)
    (hdeg : p.degree < n) (z : F) :
    lagrangeEval n x (fun i => p.eval (x i)) z = p.eval z := by
  have hvs : Set.InjOn x (Finset.range n) := by
    intro i hi j hj hij
    exact hinj i (by simpa using hi) j (by simpa using hj) hij
  have hcard : p.degree < (Finset.range n).card := by simpa using hdeg
  rw [lagrangeEval_eq_interpolate, ← Lagrange.eq_interpolate hvs hcard]

/-! ### Data model

`RowMajorMatrix` is modelled as a width plus a list of rows; a commitment
round pairs the prover data (the committed matrices, since the external
`DirectMmcs` returns exactly the committed matrices from `get_matrices`) with
the per-matrix lists of opening points. -/

structure Mat (F : Type) where
  width : ℕ
  rows : List (List F)

def Mat.height {F : Type} (m : Mat F) : ℕ := m.rows.length

structure Round (F : Type) where
  mats : List (Mat F)
  points : List (List F)

/-- Embeds `log2_strict_usize` (p3_util): the exact log2 of a power of two, a panic
(`none`) otherwise. -/
def log2Strict (n : ℕ) : Option ℕ :=
  if 2 ^ log2n n = n then some (log2n n) else none

/-! ### Commit-and-Extend (lines 42-48, 79-81, 117-137) -/

/-- Embeds `coset_shift` (lines 42-48): the canonical coset shift is the fixed field
generator `Val::generator()`, carried by the embedding as the parameter `gG`. -/
def cosetShift {F : Type} (gG : F) : F := gG

/-- Modelled from the spec: the external Subgroup DFT Engine's
`coset_low_degree_extend(matrix, blow_up_factor, coset_shift)` (spec §6),
"evaluating a polynomial, known on a small subgroup, over a larger coset"
(glossary).  Row `j` of the result evaluates, at `shift * gen (k+b) ^ j`, each
column's unique low-degree interpolant through the input rows placed on the
subgroup `{gen k ^ i}`; `gen` is the two-adic generator family
(`Val::two_adic_generator`). -/
def ldeBatch {F : Type} [Field F] (gen : ℕ → F) (b : ℕ) (shift : F) (m : Mat F) : Mat F :=
  { width := m.width
    rows := (List.range (m.height * 2 ^ b)).map fun j =>
      (List.range m.width).map fun c =>
        lagrangeEval m.height (fun i => gen (log2n m.height) ^ i)
          (fun i => (m.rows.getD i []).getD c 0)
          (shift * gen (log2n m.height + b) ^ j) }

/-- Embeds `bit_reverse_rows().to_row_major_matrix()`: materialize the rows in
bit-reversed index order. -/
def bitrevRows {F : Type} (rows : List (List F)) : List (List F) :=
  (List.range rows.length).map fun i => rows.getD (bitrev (log2n rows.length) i) []

def bitrevMat {F : Type} (m : Mat F) : Mat F :=
  { width := m.width, rows := bitrevRows m.rows }

/-- Embeds `commit_shifted_batches` (lines 117-137): compensate the requested coset
shift by the canonical one, take each batch's coset LDE, bit-reverse its rows
and commit the results through the vector-commitment engine (modelled as the
identity on the list of matrices handed to it). -/
def commitShiftedBatches {F : Type} [Field F] (gen : ℕ → F) (gG : F) (b : ℕ)
    (polynomials : List (Mat F)) (coset_shift : F) : List (Mat F) :=
  let shift := cosetShift gG / coset_shift
  polynomials.map fun poly => bitrevMat (ldeBatch gen b shift poly)

/-- Embeds `commit_batches` (lines 79-81): `commit_shifted_batches` with shift one. -/
def commitBatches {F : Type} [Field F] (gen : ℕ → F) (gG : F) (b : ℕ)
    (polynomials : List (Mat F)) : List (Mat F) :=
  commitShiftedBatches gen gG b polynomials 1

/-! ### Opened values (lines 219-233) -/

/-- The opened values for one committed matrix at one point (lines 223-233):
split off the first `height >> log_blowup` rows of the committed matrix, view
them in bit-reversed row order (`BitReversedMatrixView`), and evaluate every
column at `point` over the coset `shift * gen k ^ i` (the external
`interpolate_coset`, modelled from the spec as evaluation of each column's
unique low-degree interpolant, i.e. naive Lagrange evaluation). -/
def ysFor {F : Type} [Field F] (gen : ℕ → F) (b : ℕ) (shift : F) (m : Mat F)
    (point : F) : List F :=
  let lowRows := m.rows.take (m.height >>> b)
  let n := lowRows.length
  (List.range m.width).map fun c =>
    lagrangeEval n (fun i => shift * gen (log2n n) ^ i)
      (fun i => (lowRows.getD (bitrev (log2n n) i) []).getD c 0) point

/-! ### Small list / log helpers -/

theorem getD_map_range {α : Type} (f : ℕ → α) (n i : ℕ) (hi : i < n) (d : α) :
    ((List.range n).map f).getD i d = f i := by
  simp [List.getD_eq_getElem?_getD, List.getElem?_map, List.getElem?_range, hi]

theorem getD_take_of_lt {α : Type} (l : List α) (n i : ℕ) (hi : i < n) (d : α) :
    (l.take n).getD i d = l.getD i d := by
  simp [List.getD_eq_getElem?_getD, List.getElem?_take, hi]

theorem log2_pow (k : ℕ) : log2n (2 ^ k) = k := by
  rw [log2n_eq, Nat.log2_eq_log_two, Nat.log_pow (by norm_num)]

theorem log2Strict_pow (k : ℕ) : log2Strict (2 ^ k) = some k := by
  rw [log2Strict, log2_pow, if_pos rfl]

theorem lagrangeEval_congr {F : Type} [Field F] (n : ℕ) (x y y' : ℕ → F) (z : F)
    (h : ∀ i < n, y i = y' i) : lagrangeEval n x y z = lagrangeEval n x y' z := by
  unfold lagrangeEval
  exact Finset.sum_congr rfl fun i hi => by rw [h i (Finset.mem_range.mp hi)]

/-- C5. `commit_shifted_batches` hands the vector-commitment engine
exactly one matrix per input batch: the batch's coset low-degree extension
with blow-up factor `2 ^ log_blowup` and DFT shift `generator / coset_shift`
(the canonical shift divided by the caller's), of height
`input height * 2 ^ log_blowup`, with its rows reordered into bit-reversed
index order; and `commit_batches` is `commit_shifted_batches` at shift one. -/
theorem commit_shifted_batches_spec {F : Type} [Field F] (gen : ℕ → F) (gG : F) (b : ℕ)
    (polys : List (Mat F)) (s : F) :
    commitBatches gen gG b polys = commitShiftedBatches gen gG b polys 1 ∧
    cosetShift gG = gG ∧
    (commitShiftedBatches gen gG b polys s).length = polys.length ∧
    ∀ (t : ℕ) (m : Mat F), polys[t]? = some m →
      ∃ cm : Mat F, (commitShiftedBatches gen gG b polys s)[t]? = some cm ∧
        cm.width = m.width ∧
        cm.height = m.height * 2 ^ b ∧
        ∀ i, i < m.height * 2 ^ b →
          cm.rows.getD i [] =
            (ldeBatch gen b (gG / s) m).rows.getD
              (bitrev (log2n (m.height * 2 ^ b)) i) [] := by
  refine ⟨rfl, rfl, by simp [commitShiftedBatches], ?_⟩
  intro t m ht
  refine ⟨bitrevMat (ldeBatch gen b (cosetShift gG / s) m), ?_, rfl, ?_, ?_⟩
  · rw [commitShiftedBatches]
    simp [List.getElem?_map, ht]
  · simp [bitrevMat, bitrevRows, ldeBatch, Mat.height]
  · intro i hi
    have hlen : (ldeBatch gen b (cosetShift gG / s) m).rows.length = m.height * 2 ^ b := by
      simp [ldeBatch]
    show (bitrevRows (ldeBatch gen b (cosetShift gG / s) m).rows).getD i [] = _
    rw [bitrevRows, hlen, getD_map_range _ _ _ hi]
    rfl

/-- C1. For a matrix committed through `commit_batches` and any point `z`,
the opened value that `open_multi_batches` records for column `c` equals
direct naive Lagrange interpolation, evaluated at `z`, over the matrix's
pre-blow-up sub-table: the first `height / 2^log_blowup` natural-order rows of
the committed LDE, on their domain points `gG * gen (k+b) ^ i`.  Hypotheses:
the input matrix has height `2^k`, the two-adic generators are coherent
(`gen k = gen (k+b) ^ 2^b`), powers of the generators are distinct below the
relevant subgroup orders, and the coset shift (the field generator) is
nonzero. -/
theorem opened_value_eq_lagrange_subtable {F : Type} [Field F]
    (gen : ℕ → F) (gG : F) (b k : ℕ) (m : Mat F) (z : F) (c : ℕ)
    (hh : m.height = 2 ^ k)
    (hG0 : gG ≠ 0)
    (hcoh : gen k = gen (k + b) ^ 2 ^ b)
    (hinjk : ∀ i < 2 ^ k, ∀ j < 2 ^ k, gen k ^ i = gen k ^ j → i = j)
    (hinjK : ∀ i < 2 ^ k, ∀ j < 2 ^ k, gen (k + b) ^ i = gen (k + b) ^ j → i = j)
    (hc : c < m.width) :
    ∀ cm ∈ commitBatches gen gG b [m],
      (ysFor gen b (cosetShift gG) cm z).getD c 0
        = lagrangeEval (2 ^ k) (fun i => gG * gen (k + b) ^ i)
            (fun i => ((ldeBatch gen b gG m).rows.getD i []).getD c 0) z := by
  intro cm hcm
  have h1 : commitBatches gen gG b [m] = [bitrevMat (ldeBatch gen b gG m)] := by
    simp [commitBatches, commitShiftedBatches, cosetShift]
  rw [h1, List.mem_singleton] at hcm
  subst hcm
  set L := ldeBatch gen b gG m with hLdef
  have hLlen : L.rows.length = 2 ^ k * 2 ^ b := by
    simp [hLdef, ldeBatch, hh]
  have hkK : 2 ^ k * 2 ^ b = 2 ^ (k + b) := (pow_add 2 k b).symm
  have hble : (2 : ℕ) ^ k ≤ 2 ^ (k + b) := Nat.pow_le_pow_right (by norm_num) (by omega)
  have hcmrows : (bitrevMat L).rows.length = 2 ^ (k + b) := by
    simp [bitrevMat, bitrevRows, hLlen, hkK]
  have hcmh : (bitrevMat L).height = 2 ^ (k + b) := hcmrows
  have hshr : (bitrevMat L).height >>> b = 2 ^ k := by
    rw [hcmh, Nat.shiftRight_eq_div_pow, pow_add,
      Nat.mul_div_cancel _ (Nat.pos_pow_of_pos b (by norm_num))]
  have htlen : ((bitrevMat L).rows.take (2 ^ k)).length = 2 ^ k := by
    rw [List.length_take, hcmrows]
    exact Nat.min_eq_left hble
  -- the interpolant of column `c` of the input matrix over the plain subgroup
  set inputCol : ℕ → F := fun i => (m.rows.getD i []).getD c 0 with hinputCol
  set p : Polynomial F :=
    Lagrange.interpolate (Finset.range (2 ^ k)) (fun i => gen k ^ i) inputCol with hpdef
  have hinjOn : Set.InjOn (fun i => gen k ^ i) (Finset.range (2 ^ k)) := by
    intro i hi j hj hij
    exact hinjk i (by simpa using hi) j (by simpa using hj) hij
  have hdeg : p.degree < (2 ^ k : ℕ) := by
    have := Lagrange.degree_interpolate_lt inputCol hinjOn
    rwa [Finset.card_range] at this
  -- every row of the LDE is an evaluation of `p`
  have hLrow : ∀ j < 2 ^ k * 2 ^ b,
      (L.rows.getD j []).getD c 0 = p.eval (gG * gen (k + b) ^ j) := by
    intro j hj
    have : L.rows.getD j [] = (List.range m.width).map fun c' =>
        lagrangeEval m.height (fun i => gen (log2n m.height) ^ i)
          (fun i => (m.rows.getD i []).getD c' 0)
          (gG * gen (log2n m.height + b) ^ j) := by
      rw [hLdef, ldeBatch]
      exact getD_map_range _ _ _ (by rw [hh]; exact hj) _
    rw [this, getD_map_range _ _ _ hc, hh, log2_pow, lagrangeEval_eq_interpolate]
  -- the bit-reversed sub-table holds `p` sampled on the small coset
  have hcol : ∀ i < 2 ^ k,
      (((bitrevMat L).rows.take (2 ^ k)).getD (bitrev k i) []).getD c 0
        = p.eval (gG * gen k ^ i) := by
    intro i hi
    have hbl : bitrev k i < 2 ^ k := bitrev_lt k i
    rw [getD_take_of_lt _ _ _ hbl]
    have hview : (bitrevMat L).rows.getD (bitrev k i) []
        = L.rows.getD (bitrev (k + b) (bitrev k i)) [] := by
      show (bitrevRows L.rows).getD (bitrev k i) [] = _
      rw [bitrevRows, hLlen, hkK, log2_pow]
      exact getD_map_range _ _ _ (lt_of_lt_of_le hbl hble) _
    rw [hview, bitrev_bitrev_of_le k (k + b) i (by omega) hi]
    have hidx : i * 2 ^ (k + b - k) = i * 2 ^ b := by
      congr 2
      omega
    rw [hidx]
    have hjlt : i * 2 ^ b < 2 ^ k * 2 ^ b :=
      (Nat.mul_lt_mul_right (Nat.pos_pow_of_pos b (by norm_num))).mpr hi
    rw [hLrow _ hjlt]
    congr 1
    rw [mul_comm i (2 ^ b), pow_mul, ← hcoh]
  -- unfold `ysFor` into a Lagrange evaluation over the small coset
  have hys : (ysFor gen b (cosetShift gG) (bitrevMat L) z).getD c 0
      = lagrangeEval (2 ^ k) (fun i => gG * gen k ^ i)
          (fun i => (((bitrevMat L).rows.take (2 ^ k)).getD (bitrev k i) []).getD c 0) z := by
    rw [ysFor]
    simp only [hshr, htlen, log2_pow, cosetShift]
    exact getD_map_range _ _ _ hc _
  rw [hys]
  -- both sides are `p.eval z`
  have hLHS : lagrangeEval (2 ^ k) (fun i => gG * gen k ^ i)
      (fun i => (((bitrevMat L).rows.take (2 ^ k)).getD (bitrev k i) []).getD c 0) z
      = p.eval z := by
    rw [lagrangeEval_congr _ _ _ (fun i => p.eval (gG * gen k ^ i)) z hcol]
    refine lagrangeEval_eval_poly _ _ p ?_ hdeg z
    intro i hi j hj hij
    exact hinjk i (Finset.mem_range.mp hi) j (Finset.mem_range.mp hj)
      (mul_left_cancel₀ hG0 hij)
  have hRHS : lagrangeEval (2 ^ k) (fun i => gG * gen (k + b) ^ i)
      (fun i => (L.rows.getD i []).getD c 0) z = p.eval z := by
    rw [lagrangeEval_congr _ _ _ (fun i => p.eval (gG * gen (k + b) ^ i)) z
      (fun i hi => hLrow i (lt_of_lt_of_le hi (by rw [hkK]; exact hble)))]
    refine lagrangeEval_eval_poly _ _ p ?_ hdeg z
    intro i hi j hj hij
    exact hinjK i (Finset.mem_range.mp hi) j (Finset.mem_range.mp hj)
      (mul_left_cancel₀ hG0 hij)
  rw [hLHS, hRHS]

/-! ### Power cache (`get_cached_powers`, lines 308-313) -/

/-- The body of `get_cached_powers`' `while cache.len() < count` loop, with
one unit of fuel per iteration (the loop runs exactly `count - cache.len()`
times, since every iteration pushes one entry); `none` models the `unwrap`
panic on an empty cache. -/
def growCacheGo {F : Type} [Field F] (power : F) : ℕ → List F → Option (List F)
  | 0, cache => some cache
  | fuel + 1, cache =>
    match cache.getLast? with
    | none => none
    | some last => growCacheGo power fuel (cache ++ [last * power])

def growCache {F : Type} [Field F] (power : F) (cache : List F) (count : ℕ) :
    Option (List F) :=
  growCacheGo power (count - cache.length) cache

/-- Embeds `get_cached_powers` (lines 308-313): grow the cache to at least `count`
entries, then return it together with the slice `&cache[..count]`. -/
def getCachedPowers {F : Type} [Field F] (power : F) (cache : List F) (count : ℕ) :
    Option (List F × List F) :=
  (growCache power cache count).map fun cache' => (cache', cache'.take count)

/-- The pure power sequence `[α^0, ..., α^(L-1)]`. -/
def powList {F : Type} [Field F] (α : F) (L : ℕ) : List F :=
  (List.range L).map fun i => α ^ i

/-! ### The batched opening protocol (lines 151-293) -/

/-- The mutable state of `open_multi_batches`'s reduction loop:
`num_reduced` (line 207), `reduced_openings` (line 206, `None` = not yet
created), and `cached_alpha_pows` (line 159). -/
structure RedSt (F : Type) where
  nr : ℕ → ℕ
  ro : ℕ → Option (List F)
  cache : List F

/-- All `(matrix, point)` pairs in the order the two passes of
`open_multi_batches` iterate them: per round, per `izip!(mats, points)`
entry, per point. -/
def flatPairs {F : Type} (rounds : List (Round F)) : List (Mat F × F) :=
  rounds.flatMap fun rd =>
    (rd.mats.zip rd.points).flatMap fun mp => mp.2.map fun z => (mp.1, z)

/-- Embeds `max_log_height_for_point` (lines 167-179): the largest log-height among
matrices at which `z` is requested; `none` when `z` is never requested. -/
def maxLhForPoint {F : Type} [DecidableEq F] (rounds : List (Round F)) (z : F) :
    Option ℕ :=
  (((flatPairs rounds).filter fun p => decide (p.2 = z)).map fun p =>
    log2n p.1.height).max?

/-- Embeds `max_log_height_for_point.values().max().unwrap()` (line 180), before the
unwrap: the maximum log-height over all requested points, `none` when no
point is requested anywhere (the `unwrap` then panics). -/
def globalMaxLh {F : Type} (rounds : List (Round F)) : Option ℕ :=
  ((flatPairs rounds).map fun p => log2n p.1.height).max?

/-- The coset of size `2 ^ H` with shift `shift`, reindexed by
`reverse_slice_index_bits` (lines 181-188): entry `i` is
`shift * gen H ^ bitrev H i`. -/
def bitrevCoset {F : Type} [Field F] (gen : ℕ → F) (shift : F) (H : ℕ) : List F :=
  (List.range (2 ^ H)).map fun i => shift * gen H ^ bitrev H i

/-- The per-point inverse-denominator table (lines 189-202): `(x - z)⁻¹` over
the first `2 ^ lh` entries of the size-`2 ^ maxH` bit-reversed coset.
The external `batch_multiplicative_inverse` is modelled from the spec (§8):
"Batch inversion of `{x_i − z}` equals `{(x_i − z)^{-1}}` computed one at a
time, for all `i`". -/
def invTableFor {F : Type} [Field F] (gen : ℕ → F) (shift : F) (maxH lh : ℕ) (z : F) :
    List F :=
  ((bitrevCoset gen shift maxH).take (2 ^ lh)).map fun x => (x - z)⁻¹

/-- A `zipWith` over three lists, truncating to the shortest (the semantics of
the source's `izip!` over three iterators). -/
def zipWith3 {α β γ δ : Type} (f : α → β → γ → δ) : List α → List β → List γ → List δ
  | a :: as, b :: bs, c :: cs => f a b c :: zipWith3 f as bs cs
  | _, _, _ => []

/-- One `(matrix, point)` iteration of the reduction loop (lines 219-263):
compute the opened values `ys` by coset interpolation, grow the alpha-power
cache to the matrix's width, look up the point's inverse-denominator table
(`unwrap`, line 248), and fold
`inv_denom * alpha_pow_offset * (Σ_j α^j·(−y_j) + Σ_j α^j·row_j)` into the
height's accumulator row by row (`izip!` truncates to the shortest of rows,
accumulator, inverse table); finally advance `num_reduced[h]` by the width. -/
def processPoint {F : Type} [Field F] (gen : ℕ → F) (shift α : F) (b : ℕ)
    (invD : F → Option (List F)) (m : Mat F) (h : ℕ) (z : F) (st : RedSt F) :
    Option (RedSt F × List F) :=
  match invD z with
  | none => none
  | some invT =>
    let ys := ysFor gen b shift m z
    match getCachedPowers α st.cache m.width with
    | none => none
    | some (cache', alphaPows) =>
      let alphaPowOffset := α ^ st.nr h
      let negSum := (List.zipWith (fun a y => a * (-y)) alphaPows ys).sum
      let cur := (st.ro h).getD []
      let cur' := zipWith3
        (fun row racc inv =>
          racc + inv * alphaPowOffset *
            (negSum + (List.zipWith (fun x a => a * x) row alphaPows).sum))
        m.rows cur invT
      some ({ nr := Function.update st.nr h (st.nr h + m.width),
              ro := Function.update st.ro h (some cur'),
              cache := cache' }, ys)

def processPoints {F : Type} [Field F] (gen : ℕ → F) (shift α : F) (b : ℕ)
    (invD : F → Option (List F)) (m : Mat F) (h : ℕ) :
    List F → RedSt F → Option (RedSt F × List (List F))
  | [], st => some (st, [])
  | z :: zs, st =>
    match processPoint gen shift α b invD m h z st with
    | none => none
    | some (st', ys) =>
      match processPoints gen shift α b invD m h zs st' with
      | none => none
      | some (st'', rest) => some (st'', ys :: rest)

/-- One matrix of one round (lines 212-264): recover the strict log-height
(a panic on a non-power-of-two height), index the 32-slot per-height state
(an out-of-bounds panic for `log_height ≥ 32`), lazily create the height's
zero accumulator of the matrix's height (`get_or_insert_with`, line 215),
then process the matrix's points in order. -/
def processMat {F : Type} [Field F] (gen : ℕ → F) (shift α : F) (b : ℕ)
    (invD : F → Option (List F)) (mp : Mat F × List F) (st : RedSt F) :
    Option (RedSt F × List (List F)) :=
  match log2Strict mp.1.height with
  | none => none
  | some h =>
    if h < 32 then
      let st1 : RedSt F :=
        { st with ro := Function.update st.ro h
                    (some ((st.ro h).getD (List.replicate mp.1.height 0))) }
      processPoints gen shift α b invD mp.1 h mp.2 st1
    else none

def processMats {F : Type} [Field F] (gen : ℕ → F) (shift α : F) (b : ℕ)
    (invD : F → Option (List F)) :
    List (Mat F × List F) → RedSt F → Option (RedSt F × List (List (List F)))
  | [], st => some (st, [])
  | mp :: mps, st =>
    match processMat gen shift α b invD mp st with
    | none => none
    | some (st', ysm) =>
      match processMats gen shift α b invD mps st' with
      | none => none
      | some (st'', rest) => some (st'', ysm :: rest)

/-- The outer loop of `open_multi_batches` (lines 209-266): one entry of
`all_opened_values` per round, matrices zipped with their point lists. -/
def openLoop {F : Type} [Field F] (gen : ℕ → F) (shift α : F) (b : ℕ)
    (invD : F → Option (List F)) :
    List (Round F) → RedSt F → Option (RedSt F × List (List (List (List F))))
  | [], st => some (st, [])
  | rd :: rds, st =>
    match processMats gen shift α b invD (rd.mats.zip rd.points) st with
    | none => none
    | some (st', outR) =>
      match openLoop gen shift α b invD rds st' with
      | none => none
      | some (st'', rest) => some (st'', outR :: rest)

/-- The initial loop state: `num_reduced = [0; 32]`, no accumulator created,
alpha-power cache `[one()]` (lines 159, 206-207). -/
def initRedSt {F : Type} [Field F] : RedSt F :=
  { nr := fun _ => 0, ro := fun _ => none, cache := [1] }

/-- The first pass over all `(matrix, points)` pairs inside the
denominator-inversion span (lines 167-179) takes every matrix's strict
log-height; a non-power-of-two height panics here, before the main loop. -/
def matsLogHeights {F : Type} (rounds : List (Round F)) : Option (List ℕ) :=
  (rounds.flatMap fun rd => (rd.mats.zip rd.points).map fun mp => mp.1.height).mapM
    log2Strict

/-- Embeds `open_multi_batches` (lines 151-293).  `α` is the batching challenge the
transcript yields (line 158); `friProve` is the external low-degree proximity
prover `prover::prove` (line 268) returning its proof and query indices;
`openBatch` is the external `mmcs.open_batch` (line 276).  The result pairs
the opened values with the proof bundle `(fri_proof, input_openings)`;
`none` models a panic. -/
def openMultiBatches {F : Type} [Field F] [DecidableEq F] {P Q : Type}
    (gen : ℕ → F) (gG α : F) (b : ℕ)
    (friProve : (ℕ → Option (List F)) → P × List ℕ)
    (openBatch : ℕ → List (Mat F) → Q)
    (rounds : List (Round F)) :
    Option (List (List (List (List F))) × P × List (List Q)) :=
  match matsLogHeights rounds with
  | none => none
  | some _ =>
    match globalMaxLh rounds with
    | none => none
    | some maxH =>
      let invD : F → Option (List F) := fun z =>
        (maxLhForPoint rounds z).map fun lh => invTableFor gen (cosetShift gG) maxH lh z
      match openLoop gen (cosetShift gG) α b invD rounds initRedSt with
      | none => none
      | some (st, out) =>
        let pr := friProve st.ro
        some (out, pr.1, pr.2.map fun index => rounds.map fun rd => openBatch index rd.mats)

/-- Embeds `verify_multi_batches` (lines 295-305): the stub ignores every argument
and returns `Ok(())`. -/
def verifyMultiBatches {F Commitment Dim Proof Challenger Err : Type}
    (commitsAndPoints : List (Commitment × List (List F)))
    (dims : List (List Dim)) (values : List (List (List (List F))))
    (proof : Proof) (challenger : Challenger) : Except Err Unit :=
  Except.ok ()

/-- C3. `verify_multi_batches` unconditionally reports success: for every
combination of commitments, claimed dimensions, claimed opened values, proof
bundle and transcript it returns `Ok(())` — it performs none of the required
recomputation or proof checks and can never return a verification error. -/
theorem verify_multi_batches_always_ok {F Commitment Dim Proof Challenger Err : Type}
    (cp : List (Commitment × List (List F))) (dims : List (List Dim))
    (values : List (List (List (List F)))) (proof : Proof) (challenger : Challenger) :
    verifyMultiBatches cp dims values proof challenger = (Except.ok () : Except Err Unit) :=
  rfl

/-! ### Properties of the power cache -/

theorem powList_length {F : Type} [Field F] (α : F) (L : ℕ) :
    (powList α L).length = L := by
  simp [powList]

theorem powList_getLast? {F : Type} [Field F] (α : F) (L : ℕ) (hL : 1 ≤ L) :
    (powList α L).getLast? = some (α ^ (L - 1)) := by
  obtain ⟨M, rfl⟩ : ∃ M, L = M + 1 := ⟨L - 1, by omega⟩
  rw [powList, List.range_succ, List.map_append]
  simp

theorem powList_concat {F : Type} [Field F] (α : F) (L : ℕ) (hL : 1 ≤ L) :
    powList α L ++ [α ^ (L - 1) * α] = powList α (L + 1) := by
  have hp : α ^ (L - 1) * α = α ^ L := by
    rw [← pow_succ]
    congr 1
    omega
  rw [hp, powList, powList, List.range_succ, List.map_append]
  rfl

theorem powList_take {F : Type} [Field F] (α : F) (M count : ℕ) (h : count ≤ M) :
    (powList α M).take count = powList α count := by
  rw [powList, ← List.map_take, List.take_range]
  congr 2
  omega

theorem growCacheGo_powList {F : Type} [Field F] (α : F) (fuel : ℕ) :
    ∀ L, 1 ≤ L → growCacheGo α fuel (powList α L) = some (powList α (L + fuel)) := by
  induction fuel with
  | zero =>
    intro L hL
    rfl
  | succ fuel ih =>
    intro L hL
    have h1 : (powList α L).getLast? = some (α ^ (L - 1)) := powList_getLast? α L hL
    simp only [growCacheGo, h1]
    rw [powList_concat α L hL, ih (L + 1) (by omega)]
    congr 2
    omega

/-- C8. The alpha-power cache is a pure memoized power sequence: the
initial cache is `powList α 1 = [1]`; from any cache state
`[α^0, ..., α^(L-1)]` a call `get_cached_powers(α, cache, count)` leaves the
cache equal to `[α^0, ..., α^(max L count - 1)]` — so every entry `i` is
`α^i`, the length never decreases — and returns exactly
`[α^0, ..., α^(count-1)]`. -/
theorem get_cached_powers_spec {F : Type} [Field F] (α : F) (L count : ℕ) (hL : 1 ≤ L) :
    powList α 1 = [1] ∧
    getCachedPowers α (powList α L) count
      = some (powList α (max L count), powList α count) ∧
    L ≤ (powList α (max L count)).length ∧
    (∀ i < max L count, (powList α (max L count)).getD i 0 = α ^ i) := by
  refine ⟨by simp [powList, List.range_succ], ?_, ?_, ?_⟩
  · rw [getCachedPowers, growCache, powList_length,
      growCacheGo_powList α (count - L) L hL]
    have hmax : L + (count - L) = max L count := by omega
    rw [hmax, Option.map_some']
    rw [powList_take α (max L count) count (by omega)]
  · rw [powList_length]
    omega
  · intro i hi
    rw [powList]
    exact getD_map_range _ _ _ hi _

/-! ### Properties of the bit-reversed coset tables -/

/-- C7. Truncation compatibility under bit-reversed indexing (with the
two-adic generators coherent between the two sizes, `gen h = gen H ^ 2^(H-h)`):
the first `2^h` elements of the size-`2^H` bit-reversed coset form exactly the
size-`2^h` bit-reversed coset with the same shift; hence the
inverse-denominator sequence for `z` truncated to `2^h` entries — which is
precisely the table `open_multi_batches` precomputes for a point whose
maximal requested log-height is `h` — equals the inverse-denominator sequence
over the size-`2^h` bit-reversed coset. -/
theorem inv_denoms_truncation_compat {F : Type} [Field F] (gen : ℕ → F) (shift z : F)
    (h H : ℕ) (hhH : h ≤ H) (hcoh : gen h = gen H ^ 2 ^ (H - h)) :
    (bitrevCoset gen shift H).take (2 ^ h) = bitrevCoset gen shift h ∧
    ((bitrevCoset gen shift H).map fun x => (x - z)⁻¹).take (2 ^ h)
      = ((bitrevCoset gen shift h).map fun x => (x - z)⁻¹) ∧
    invTableFor gen shift H h z = ((bitrevCoset gen shift h).map fun x => (x - z)⁻¹) := by
  have hble : (2 : ℕ) ^ h ≤ 2 ^ H := Nat.pow_le_pow_right (by norm_num) hhH
  have hmain : (bitrevCoset gen shift H).take (2 ^ h) = bitrevCoset gen shift h := by
    rw [bitrevCoset, bitrevCoset, ← List.map_take, List.take_range]
    have hmin : 2 ^ h ⊓ 2 ^ H = 2 ^ h := by omega
    rw [hmin]
    refine List.map_congr_left fun i hi => ?_
    have hi' : i < 2 ^ h := List.mem_range.mp hi
    have hsplit : H = h + (H - h) := by omega
    rw [hsplit, bitrev_add_of_lt h (H - h) i hi', mul_comm (bitrev h i) (2 ^ (H - h)),
      pow_mul, ← hsplit, ← hcoh]
  refine ⟨hmain, ?_, ?_⟩
  · rw [← List.map_take, hmain]
  · rw [invTableFor, hmain]

/-! ### Index/sum helpers for the reduction loop -/

theorem getD_replicate' {α : Type} (n r : ℕ) (a d : α) (h : r < n) :
    (List.replicate n a).getD r d = a := by
  simp [List.getD_eq_getElem?_getD, List.getElem?_replicate, h]

theorem sum_map_range {F : Type} [Field F] (f : ℕ → F) (n : ℕ) :
    ((List.range n).map f).sum = ∑ j ∈ Finset.range n, f j := by
  induction n with
  | zero => simp
  | succ n ih =>
    rw [List.range_succ, List.map_append, List.sum_append, Finset.sum_range_succ, ih]
    simp

theorem sum_eq_sum_range_getD {F : Type} [Field F] (l : List F) :
    l.sum = ∑ j ∈ Finset.range l.length, l.getD j 0 := by
  induction l with
  | nil => simp
  | cons a l ih =>
    rw [List.sum_cons, List.length_cons, Finset.sum_range_succ', ih]
    simp only [List.getD_cons_succ, List.getD_cons_zero]
    ring

theorem zipWith_getD {α β γ : Type} (f : α → β → γ) :
    ∀ (as : List α) (bs : List β) (r : ℕ), r < as.length → r < bs.length →
      ∀ (d : γ) (da : α) (db : β),
        (List.zipWith f as bs).getD r d = f (as.getD r da) (bs.getD r db)
  | a :: as, b :: bs, 0, _, _, d, da, db => rfl
  | a :: as, b :: bs, r + 1, h1, h2, d, da, db => by
    show (List.zipWith f as bs).getD r d = f (as.getD r da) (bs.getD r db)
    exact zipWith_getD f as bs r (by simpa using h1) (by simpa using h2) d da db

theorem zipWith3_length {α β γ δ : Type} (f : α → β → γ → δ) :
    ∀ (as : List α) (bs : List β) (cs : List γ),
      (zipWith3 f as bs cs).length = min (min as.length bs.length) cs.length
  | [], [], [] => rfl
  | [], [], _ :: _ => rfl
  | [], _ :: _, [] => rfl
  | [], _ :: _, _ :: _ => rfl
  | _ :: _, [], [] => rfl
  | _ :: _, [], _ :: _ => rfl
  | _ :: _, _ :: _, [] => by simp [zipWith3]
  | a :: as, b :: bs, c :: cs => by
    show (zipWith3 f as bs cs).length + 1 = _
    rw [zipWith3_length f as bs cs]
    simp only [List.length_cons]
    omega

theorem zipWith3_getD {α β γ δ : Type} (f : α → β → γ → δ) :
    ∀ (as : List α) (bs : List β) (cs : List γ) (r : ℕ),
      r < as.length → r < bs.length → r < cs.length →
      ∀ (d : δ) (da : α) (db : β) (dc : γ),
        (zipWith3 f as bs cs).getD r d = f (as.getD r da) (bs.getD r db) (cs.getD r dc)
  | a :: as, b :: bs, c :: cs, 0, _, _, _, d, da, db, dc => rfl
  | a :: as, b :: bs, c :: cs, r + 1, h1, h2, h3, d, da, db, dc => by
    show (zipWith3 f as bs cs).getD r d = _
    exact zipWith3_getD f as bs cs r (by simpa using h1) (by simpa using h2)
      (by simpa using h3) d da db dc

/-! ### The batched DEEP-quotient specification (claim C2's formula) -/

/-- The log-height of a matrix as the loop computes it. -/
def logH {F : Type} (m : Mat F) : ℕ := log2n m.height

/-- Total column width consumed at log-height `h` by a list of
`(matrix, point)` pairs. -/
def widthSumAt {F : Type} (h : ℕ) : List (Mat F × F) → ℕ
  | [] => 0
  | p :: rest => (if logH p.1 = h then p.1.width else 0) + widthSumAt h rest

/-- One `(matrix, point)` contribution to row `r` of the height-`h` reduced
opening: `(Σ_j α^j (table[r][j] − y_j)) / (x_r − z)`, with `x_r` the `r`-th
element of the size-`2^h` bit-reversed coset and `y` the opened values. -/
def deepTerm {F : Type} [Field F] (gen : ℕ → F) (shift α : F) (b h r : ℕ)
    (m : Mat F) (z : F) : F :=
  (∑ j ∈ Finset.range m.width,
      α ^ j * ((m.rows.getD r []).getD j 0 - (ysFor gen b shift m z).getD j 0)) /
    (shift * gen h ^ bitrev h r - z)

/-- The claimed accumulator value at height `h`, row `r`, after a list of
`(matrix, point)` pairs has been processed, threading the per-height
alpha-power offset (the total column width consumed at `h` so far). -/
def accSpec {F : Type} [Field F] (gen : ℕ → F) (shift α : F) (b h r : ℕ) :
    List (Mat F × F) → ℕ → F
  | [], _ => 0
  | p :: rest, off =>
    if logH p.1 = h then
      α ^ off * deepTerm gen shift α b h r p.1 p.2 +
        accSpec gen shift α b h r rest (off + p.1.width)
    else accSpec gen shift α b h r rest off

theorem widthSumAt_append {F : Type} (h : ℕ) (xs ys : List (Mat F × F)) :
    widthSumAt h (xs ++ ys) = widthSumAt h xs + widthSumAt h ys := by
  induction xs with
  | nil => simp [widthSumAt]
  | cons p xs ih =>
    show (if logH p.1 = h then p.1.width else 0) + widthSumAt h (xs ++ ys) = _
    rw [ih]
    show _ = (if logH p.1 = h then p.1.width else 0) + widthSumAt h xs + widthSumAt h ys
    omega

theorem accSpec_append {F : Type} [Field F] (gen : ℕ → F) (shift α : F) (b h r : ℕ)
    (xs ys : List (Mat F × F)) : ∀ off,
    accSpec gen shift α b h r (xs ++ ys) off
      = accSpec gen shift α b h r xs off
        + accSpec gen shift α b h r ys (off + widthSumAt h xs) := by
  induction xs with
  | nil =>
    intro off
    simp [accSpec, widthSumAt]
  | cons p xs ih =>
    intro off
    show accSpec gen shift α b h r (p :: (xs ++ ys)) off = _
    by_cases hp : logH p.1 = h
    · rw [accSpec, if_pos hp, ih (off + p.1.width)]
      rw [accSpec, if_pos hp]
      show _ = α ^ off * deepTerm gen shift α b h r p.1 p.2 +
        accSpec gen shift α b h r xs (off + p.1.width) +
        accSpec gen shift α b h r ys (off + widthSumAt h (p :: xs))
      have : widthSumAt h (p :: xs) = p.1.width + widthSumAt h xs := by
        show (if logH p.1 = h then p.1.width else 0) + widthSumAt h xs = _
        rw [if_pos hp]
      rw [this]
      have : off + p.1.width + widthSumAt h xs = off + (p.1.width + widthSumAt h xs) := by omega
      rw [this]
      ring
    · rw [accSpec, if_neg hp, ih off]
      rw [accSpec, if_neg hp]
      have : widthSumAt h (p :: xs) = widthSumAt h xs := by
        show (if logH p.1 = h then p.1.width else 0) + widthSumAt h xs = _
        rw [if_neg hp]
        omega
      rw [this]

theorem accSpec_of_no_height {F : Type} [Field F] (gen : ℕ → F) (shift α : F)
    (b h r : ℕ) (xs : List (Mat F × F)) (hx : ∀ p ∈ xs, logH p.1 ≠ h) : ∀ off,
    accSpec gen shift α b h r xs off = 0 := by
  induction xs with
  | nil => intro off; rfl
  | cons p xs ih =>
    intro off
    rw [accSpec, if_neg (hx p (by simp))]
    exact ih (fun q hq => hx q (by simp [hq])) off

theorem widthSumAt_of_no_height {F : Type} (h : ℕ) (xs : List (Mat F × F))
    (hx : ∀ p ∈ xs, logH p.1 ≠ h) : widthSumAt h xs = 0 := by
  induction xs with
  | nil => rfl
  | cons p xs ih =>
    rw [widthSumAt, if_neg (hx p (by simp))]
    rw [ih fun q hq => hx q (by simp [hq])]

/-! ### Properties of the point-to-height map -/

theorem nat_max?_eq_some_iff {l : List ℕ} {M : ℕ} :
    l.max? = some M ↔ M ∈ l ∧ ∀ b ∈ l, b ≤ M :=
  List.max?_eq_some_iff (fun a => le_refl a) (fun a b => max_choice a b)
    (fun _ _ _ => max_le_iff)

/-- Any point actually requested has an entry in `max_log_height_for_point`,
at least as large as every log-height at which it is requested and no larger
than the global maximum. -/
theorem maxLhForPoint_spec {F : Type} [DecidableEq F] (rounds : List (Round F))
    (m : Mat F) (z : F) (hmem : (m, z) ∈ flatPairs rounds) (maxH : ℕ)
    (hmax : globalMaxLh rounds = some maxH) :
    ∃ lh, maxLhForPoint rounds z = some lh ∧ logH m ≤ lh ∧ lh ≤ maxH := by
  have hmemf : (m, z) ∈ (flatPairs rounds).filter fun p => decide (p.2 = z) := by
    rw [List.mem_filter]
    exact ⟨hmem, by simp⟩
  have hmem2 : logH m ∈ ((flatPairs rounds).filter fun p => decide (p.2 = z)).map
      fun p => log2n p.1.height :=
    List.mem_map.mpr ⟨(m, z), hmemf, rfl⟩
  have hsome : (((flatPairs rounds).filter fun p => decide (p.2 = z)).map
      fun p => log2n p.1.height).max?.isSome = true :=
    List.isSome_max?_of_mem hmem2
  obtain ⟨lh, hlh⟩ := Option.isSome_iff_exists.mp hsome
  refine ⟨lh, hlh, ?_, ?_⟩
  · exact (nat_max?_eq_some_iff.mp hlh).2 _ hmem2
  · have hlhmem := (nat_max?_eq_some_iff.mp hlh).1
    obtain ⟨q, hqf, hq⟩ := List.mem_map.mp hlhmem
    have hqmem : q ∈ flatPairs rounds := (List.mem_filter.mp hqf).1
    have : log2n q.1.height ∈ (flatPairs rounds).map fun p => log2n p.1.height :=
      List.mem_map.mpr ⟨q, hqmem, rfl⟩
    have := (nat_max?_eq_some_iff.mp hmax).2 _ this
    omega

/-- The global maximum log-height is attained by some requested pair. -/
theorem globalMaxLh_attained {F : Type} (rounds : List (Round F)) (maxH : ℕ)
    (hmax : globalMaxLh rounds = some maxH) :
    ∃ q ∈ flatPairs rounds, logH q.1 = maxH := by
  have := (nat_max?_eq_some_iff.mp hmax).1
  obtain ⟨q, hq, hq2⟩ := List.mem_map.mp this
  exact ⟨q, hq, hq2⟩

/-! ### The reduction-loop invariant -/

theorem bitrevCoset_entry_eq {F : Type} [Field F] (gen : ℕ → F) (shift : F)
    (h H r : ℕ) (hr : r < 2 ^ h) (hhH : h ≤ H) (hcoh : gen h = gen H ^ 2 ^ (H - h)) :
    shift * gen H ^ bitrev H r = shift * gen h ^ bitrev h r := by
  have hsplit : H = h + (H - h) := by omega
  rw [hsplit, bitrev_add_of_lt h (H - h) r hr, mul_comm (bitrev h r) _, pow_mul,
    ← hsplit, ← hcoh]

theorem invTableFor_length {F : Type} [Field F] (gen : ℕ → F) (shift : F)
    (maxH lh : ℕ) (z : F) (hlh : lh ≤ maxH) :
    (invTableFor gen shift maxH lh z).length = 2 ^ lh := by
  have : (2 : ℕ) ^ lh ≤ 2 ^ maxH := Nat.pow_le_pow_right (by norm_num) hlh
  simp [invTableFor, bitrevCoset]
  omega

theorem invTableFor_getD {F : Type} [Field F] (gen : ℕ → F) (shift : F)
    (maxH lh r : ℕ) (z : F) (hr : r < 2 ^ lh) (hlh : lh ≤ maxH) :
    (invTableFor gen shift maxH lh z).getD r 0
      = (shift * gen maxH ^ bitrev maxH r - z)⁻¹ := by
  have hrH : r < 2 ^ maxH :=
    lt_of_lt_of_le hr (Nat.pow_le_pow_right (by norm_num) hlh)
  simp [invTableFor, bitrevCoset, List.getD_eq_getElem?_getD, List.getElem?_map,
    List.getElem?_take, List.getElem?_range, hr, hrH]

theorem ysFor_length {F : Type} [Field F] (gen : ℕ → F) (b : ℕ) (shift : F)
    (m : Mat F) (z : F) : (ysFor gen b shift m z).length = m.width := by
  simp [ysFor]

/-- The combined per-row combination: correction plus row sum equals the
single sum `Σ_j α^j (row_j − y_j)` over the matrix's columns. -/
theorem negSum_add_rowSum {F : Type} [Field F] (α : F) (w : ℕ) (row ys : List F)
    (hrow : row.length = w) (hys : ys.length = w) :
    (List.zipWith (fun a y => a * (-y)) (powList α w) ys).sum
      + (List.zipWith (fun x a => a * x) row (powList α w)).sum
      = ∑ j ∈ Finset.range w, α ^ j * (row.getD j 0 - ys.getD j 0) := by
  have hplen : (powList α w).length = w := powList_length α w
  have hlen1 : (List.zipWith (fun a y : F => a * (-y)) (powList α w) ys).length = w := by
    rw [List.length_zipWith, hplen, hys]
    omega
  have hlen2 : (List.zipWith (fun x a : F => a * x) row (powList α w)).length = w := by
    rw [List.length_zipWith, hplen, hrow]
    omega
  rw [sum_eq_sum_range_getD, hlen1, sum_eq_sum_range_getD, hlen2,
    ← Finset.sum_add_distrib]
  refine Finset.sum_congr rfl fun j hj => ?_
  have hjw : j < w := Finset.mem_range.mp hj
  rw [zipWith_getD _ _ _ _ (by omega) (by omega) _ 0 0,
    zipWith_getD _ _ _ _ (by omega) (by omega) _ 0 0]
  have hpj : (powList α w).getD j 0 = α ^ j := by
    rw [powList]
    exact getD_map_range _ _ _ hjw _
  rw [hpj]
  ring

/-- The invariant of the reduction loop after processing the `(matrix, point)`
pairs `done`: the alpha-power cache is a pure power sequence; `num_reduced[h]`
equals the column width consumed at height `h`; every created accumulator is
as long as its subgroup and carries the batched DEEP-quotient value of the
processed pairs at every row; a non-created slot means no processed pair had
that height. -/
def StInv {F : Type} [Field F] (gen : ℕ → F) (shift α : F) (b : ℕ)
    (done : List (Mat F × F)) (st : RedSt F) : Prop :=
  (∃ L, 1 ≤ L ∧ st.cache = powList α L) ∧
  (∀ h, st.nr h = widthSumAt h done) ∧
  (∀ h l, st.ro h = some l →
    l.length = 2 ^ h ∧ ∀ r < 2 ^ h, l.getD r 0 = accSpec gen shift α b h r done 0) ∧
  (∀ h, st.ro h = none → ∀ p ∈ done, logH p.1 ≠ h)

/-- One point-processing step preserves the invariant, extending the
processed pair list by `(m, z)`. -/
theorem processPoint_step {F : Type} [Field F]
    (gen : ℕ → F) (shift α : F) (b maxH : ℕ)
    (invD : F → Option (List F)) (m : Mat F) (h : ℕ) (z : F) (lh : ℕ)
    (hinvD : invD z = some (invTableFor gen shift maxH lh z))
    (hlh1 : h ≤ lh) (hlh2 : lh ≤ maxH)
    (hh : m.height = 2 ^ h)
    (hrows : ∀ row ∈ m.rows, row.length = m.width)
    (hcoh : gen h = gen maxH ^ 2 ^ (maxH - h))
    (hlogH : logH m = h)
    (done : List (Mat F × F)) (st : RedSt F)
    (hinv : StInv gen shift α b done st)
    (l : List F) (hro : st.ro h = some l) :
    ∃ st', processPoint gen shift α b invD m h z st
        = some (st', ysFor gen b shift m z)
      ∧ StInv gen shift α b (done ++ [(m, z)]) st'
      ∧ st'.ro h ≠ none := by
  obtain ⟨⟨L, hL1, hLc⟩, hnr, hsomeInv, hnoneInv⟩ := hinv
  have hcache := (get_cached_powers_spec α L m.width hL1).2.1
  have hllen : l.length = 2 ^ h := (hsomeInv h l hro).1
  have hval : ∀ r < 2 ^ h, l.getD r 0 = accSpec gen shift α b h r done 0 :=
    (hsomeInv h l hro).2
  set ys := ysFor gen b shift m z with hysdef
  set negSum := (List.zipWith (fun a y : F => a * (-y)) (powList α m.width) ys).sum
    with hnegdef
  set invT := invTableFor gen shift maxH lh z with hinvTdef
  set newAcc := zipWith3
    (fun row racc inv =>
      racc + inv * α ^ st.nr h *
        (negSum + (List.zipWith (fun x a : F => a * x) row (powList α m.width)).sum))
    m.rows l invT with hnewdef
  have hsingleW : widthSumAt h [(m, z)] = m.width := by
    show (if logH m = h then m.width else 0) + widthSumAt h [] = m.width
    rw [if_pos hlogH]
    rfl
  have hotherW : ∀ h', h' ≠ h → widthSumAt h' [(m, z)] = 0 := by
    intro h' hne
    show (if logH m = h' then m.width else 0) + widthSumAt h' [] = 0
    rw [if_neg (by rw [hlogH]; exact fun hc => hne hc.symm)]
    rfl
  refine ⟨⟨Function.update st.nr h (st.nr h + m.width),
          Function.update st.ro h (some newAcc),
          powList α (max L m.width)⟩, ?_, ?_, ?_⟩
  · -- the step computes exactly this state
    simp only [processPoint, hinvD, hLc, hcache, hro, Option.getD_some, ← hysdef,
      ← hnegdef, ← hinvTdef, ← hnewdef]
  · -- the invariant is preserved
    have hinvTlen : invT.length = 2 ^ lh := invTableFor_length gen shift maxH lh z hlh2
    have h2hle : (2 : ℕ) ^ h ≤ 2 ^ lh := Nat.pow_le_pow_right (by norm_num) hlh1
    have hnewlen : newAcc.length = 2 ^ h := by
      rw [hnewdef, zipWith3_length]
      rw [show m.rows.length = 2 ^ h from hh, hllen, hinvTlen]
      omega
    refine ⟨⟨max L m.width, by omega, rfl⟩, ?_, ?_, ?_⟩
    · -- num_reduced
      intro h'
      dsimp only
      rw [widthSumAt_append]
      by_cases hcase : h' = h
      · rw [hcase, Function.update_same, hnr h, hsingleW]
      · rw [Function.update_noteq hcase, hnr h', hotherW h' hcase]
        omega
    · -- accumulators
      intro h' l' hl'
      dsimp only at hl'
      by_cases hcase : h' = h
      · subst hcase
        rw [Function.update_same] at hl'
        injection hl' with hl'
        subst hl'
        refine ⟨hnewlen, ?_⟩
        intro r hr
        have hrrows : r < m.rows.length := by
          rw [show m.rows.length = 2 ^ h' from hh]
          exact hr
        have hrl : r < l.length := by omega
        have hrinvT : r < invT.length := by
          rw [hinvTlen]
          omega
        rw [hnewdef, zipWith3_getD _ _ _ _ _ hrrows hrl hrinvT 0 [] 0 0]
        rw [accSpec_append, hval r hr]
        have hsingle : accSpec gen shift α b h' r [(m, z)] (0 + widthSumAt h' done)
            = α ^ widthSumAt h' done * deepTerm gen shift α b h' r m z := by
          rw [accSpec, if_pos hlogH]
          show α ^ (0 + widthSumAt h' done) * _ + accSpec gen shift α b h' r []
            (0 + widthSumAt h' done + m.width) = _
          rw [show (0 + widthSumAt h' done) = widthSumAt h' done by omega]
          show α ^ widthSumAt h' done * _ + 0 = _
          ring
        rw [hsingle]
        congr 1
        have hrowlen : (m.rows.getD r []).length = m.width := by
          rw [List.getD_eq_getElem _ _ hrrows]
          exact hrows _ (List.getElem_mem hrrows)
        have hyslen : ys.length = m.width := by
          rw [hysdef]
          exact ysFor_length gen b shift m z
        have hsum := negSum_add_rowSum α m.width (m.rows.getD r []) ys hrowlen hyslen
        rw [← hnegdef] at hsum
        rw [hsum]
        have hinvTr : invT.getD r 0 = (shift * gen h' ^ bitrev h' r - z)⁻¹ := by
          rw [hinvTdef, invTableFor_getD gen shift maxH lh r z (by omega) hlh2,
            bitrevCoset_entry_eq gen shift h' maxH r hr (by omega) hcoh]
        rw [hinvTr, hnr h']
        simp only [deepTerm, ← hysdef]
        rw [div_eq_mul_inv]
        ring
      · rw [Function.update_noteq hcase] at hl'
        obtain ⟨hlen', hval'⟩ := hsomeInv h' l' hl'
        refine ⟨hlen', ?_⟩
        intro r hr
        rw [hval' r hr, accSpec_append]
        have hz : accSpec gen shift α b h' r [(m, z)] (0 + widthSumAt h' done) = 0 := by
          rw [accSpec, if_neg (by rw [hlogH]; exact fun hc => hcase hc.symm)]
          rfl
        rw [hz]
        ring
    · -- uncreated slots
      intro h' hn p hp
      dsimp only at hn
      have hne : h' ≠ h := by
        intro hc
        subst hc
        rw [Function.update_same] at hn
        exact Option.noConfusion hn
      rw [Function.update_noteq hne] at hn
      rcases List.mem_append.mp hp with hp | hp
      · exact hnoneInv h' hn p hp
      · have hpz : p = (m, z) := List.mem_singleton.mp hp
        subst hpz
        show logH m ≠ h'
        rw [hlogH]
        exact fun hc => hne hc.symm
  · -- the height's slot stays created
    show Function.update st.ro h (some newAcc) h ≠ none
    rw [Function.update_same]
    exact Option.noConfusion

/-- Lazily creating a height's zero accumulator (`get_or_insert_with`)
preserves the invariant and guarantees the slot is populated. -/
theorem insert_slot_inv {F : Type} [Field F] (gen : ℕ → F) (shift α : F) (b : ℕ)
    (done : List (Mat F × F)) (st : RedSt F) (hinv : StInv gen shift α b done st)
    (h ht : ℕ) (hht : ht = 2 ^ h) :
    StInv gen shift α b done
      { st with ro := Function.update st.ro h
                        (some ((st.ro h).getD (List.replicate ht 0))) }
    ∧ ∃ l, Function.update st.ro h (some ((st.ro h).getD (List.replicate ht 0))) h
        = some l := by
  obtain ⟨hc, hnr, hsomeInv, hnoneInv⟩ := hinv
  refine ⟨⟨hc, hnr, ?_, ?_⟩, _, Function.update_same h _ _⟩
  · intro h' l' hl'
    dsimp only at hl'
    by_cases hcase : h' = h
    · subst hcase
      rw [Function.update_same] at hl'
      injection hl' with hl'
      cases hro : st.ro h' with
      | some l =>
        rw [hro, Option.getD_some] at hl'
        rw [← hl']
        exact hsomeInv h' l hro
      | none =>
        rw [hro, Option.getD_none] at hl'
        subst hl'
        constructor
        · rw [List.length_replicate, hht]
        · intro r hr
          rw [hht, getD_replicate' _ _ _ _ hr,
            accSpec_of_no_height gen shift α b h' r done (hnoneInv h' hro) 0]
    · rw [Function.update_noteq hcase] at hl'
      exact hsomeInv h' l' hl'
  · intro h' hn p hp
    dsimp only at hn
    have hne : h' ≠ h := by
      intro hcase
      subst hcase
      rw [Function.update_same] at hn
      exact Option.noConfusion hn
    rw [Function.update_noteq hne] at hn
    exact hnoneInv h' hn p hp

/-- Processing a matrix's whole point list preserves the invariant, appending
one `(matrix, point)` pair per point in order. -/
theorem processPoints_inv {F : Type} [Field F]
    (gen : ℕ → F) (shift α : F) (b maxH : ℕ) (invD : F → Option (List F))
    (m : Mat F) (h : ℕ)
    (hh : m.height = 2 ^ h)
    (hrows : ∀ row ∈ m.rows, row.length = m.width)
    (hlogH : logH m = h) :
    ∀ (zs : List F),
    (∀ z ∈ zs, (∃ lh, invD z = some (invTableFor gen shift maxH lh z)
        ∧ h ≤ lh ∧ lh ≤ maxH) ∧ gen h = gen maxH ^ 2 ^ (maxH - h)) →
    ∀ (done : List (Mat F × F)) (st : RedSt F), StInv gen shift α b done st →
      (∃ l, st.ro h = some l) →
      ∃ st', processPoints gen shift α b invD m h zs st
          = some (st', zs.map (ysFor gen b shift m))
        ∧ StInv gen shift α b (done ++ zs.map fun z => (m, z)) st'
        ∧ ∃ l', st'.ro h = some l' := by
  intro zs
  induction zs with
  | nil =>
    intro _ done st hinv hsome
    exact ⟨st, rfl, by simpa using hinv, hsome⟩
  | cons z zs ih =>
    intro hzs done st hinv hsome
    obtain ⟨l, hro⟩ := hsome
    obtain ⟨⟨lh, hinvD, hlh1, hlh2⟩, hcoh⟩ := hzs z (by simp)
    obtain ⟨st1, hstep, hinv1, hne1⟩ := processPoint_step gen shift α b maxH invD m h z lh
      hinvD hlh1 hlh2 hh hrows hcoh hlogH done st hinv l hro
    obtain ⟨l1, hro1⟩ := Option.ne_none_iff_exists'.mp hne1
    obtain ⟨st2, hrest, hinv2, hsome2⟩ := ih (fun z' hz' => hzs z' (by simp [hz']))
      (done ++ [(m, z)]) st1 hinv1 ⟨l1, hro1⟩
    refine ⟨st2, ?_, ?_, hsome2⟩
    · simp only [processPoints, hstep, hrest, List.map_cons]
    · have happ : (done ++ [(m, z)]) ++ zs.map (fun z => (m, z))
          = done ++ (z :: zs).map (fun z => (m, z)) := by simp
      rwa [happ] at hinv2

/-- Processing one matrix preserves the invariant. -/
theorem processMat_inv {F : Type} [Field F]
    (gen : ℕ → F) (shift α : F) (b maxH : ℕ) (invD : F → Option (List F))
    (mp : Mat F × List F)
    (hh : mp.1.height = 2 ^ logH mp.1)
    (h32 : logH mp.1 < 32)
    (hrows : ∀ row ∈ mp.1.rows, row.length = mp.1.width)
    (hzs : ∀ z ∈ mp.2, (∃ lh, invD z = some (invTableFor gen shift maxH lh z)
        ∧ logH mp.1 ≤ lh ∧ lh ≤ maxH)
        ∧ gen (logH mp.1) = gen maxH ^ 2 ^ (maxH - logH mp.1))
    (done : List (Mat F × F)) (st : RedSt F) (hinv : StInv gen shift α b done st) :
    ∃ st', processMat gen shift α b invD mp st
        = some (st', mp.2.map (ysFor gen b shift mp.1))
      ∧ StInv gen shift α b (done ++ mp.2.map fun z => (mp.1, z)) st' := by
  have hlog : log2Strict mp.1.height = some (logH mp.1) := by
    rw [hh, log2Strict_pow]
  obtain ⟨hinv1, l1, hro1⟩ := insert_slot_inv gen shift α b done st hinv (logH mp.1)
    mp.1.height hh
  obtain ⟨st', hpts, hinv', _⟩ := processPoints_inv gen shift α b maxH invD mp.1
    (logH mp.1) hh hrows rfl mp.2 hzs done
    { st with ro := Function.update st.ro (logH mp.1)
                      (some ((st.ro (logH mp.1)).getD (List.replicate mp.1.height 0))) }
    hinv1 ⟨l1, hro1⟩
  refine ⟨st', ?_, hinv'⟩
  simp only [processMat, hlog, h32, if_pos]
  exact hpts

/-- Processing a round's zipped matrix list preserves the invariant. -/
theorem processMats_inv {F : Type} [Field F]
    (gen : ℕ → F) (shift α : F) (b maxH : ℕ) (invD : F → Option (List F)) :
    ∀ (mps : List (Mat F × List F)),
    (∀ mp ∈ mps, mp.1.height = 2 ^ logH mp.1 ∧ logH mp.1 < 32
      ∧ (∀ row ∈ mp.1.rows, row.length = mp.1.width)
      ∧ ∀ z ∈ mp.2, (∃ lh, invD z = some (invTableFor gen shift maxH lh z)
          ∧ logH mp.1 ≤ lh ∧ lh ≤ maxH)
          ∧ gen (logH mp.1) = gen maxH ^ 2 ^ (maxH - logH mp.1)) →
    ∀ (done : List (Mat F × F)) (st : RedSt F), StInv gen shift α b done st →
    ∃ st', processMats gen shift α b invD mps st
        = some (st', mps.map fun mp => mp.2.map (ysFor gen b shift mp.1))
      ∧ StInv gen shift α b
          (done ++ mps.flatMap fun mp => mp.2.map fun z => (mp.1, z)) st' := by
  intro mps
  induction mps with
  | nil =>
    intro _ done st hinv
    exact ⟨st, rfl, by simpa using hinv⟩
  | cons mp mps ih =>
    intro hmps done st hinv
    obtain ⟨hh, h32, hrows, hzs⟩ := hmps mp (by simp)
    obtain ⟨st1, hstep, hinv1⟩ := processMat_inv gen shift α b maxH invD mp hh h32
      hrows hzs done st hinv
    obtain ⟨st2, hrest, hinv2⟩ := ih (fun q hq => hmps q (by simp [hq]))
      (done ++ mp.2.map fun z => (mp.1, z)) st1 hinv1
    refine ⟨st2, ?_, ?_⟩
    · simp only [processMats, hstep, hrest, List.map_cons]
    · have happ : (done ++ mp.2.map fun z => (mp.1, z))
          ++ (mps.flatMap fun q => q.2.map fun z => (q.1, z))
          = done ++ ((mp :: mps).flatMap fun q => q.2.map fun z => (q.1, z)) := by
        simp
      rwa [happ] at hinv2

/-- The whole reduction loop preserves the invariant, producing the nested
opened-values structure round → matrix → point → column. -/
theorem openLoop_inv {F : Type} [Field F]
    (gen : ℕ → F) (shift α : F) (b maxH : ℕ) (invD : F → Option (List F)) :
    ∀ (rds : List (Round F)),
    (∀ rd ∈ rds, ∀ mp ∈ rd.mats.zip rd.points,
      mp.1.height = 2 ^ logH mp.1 ∧ logH mp.1 < 32
      ∧ (∀ row ∈ mp.1.rows, row.length = mp.1.width)
      ∧ ∀ z ∈ mp.2, (∃ lh, invD z = some (invTableFor gen shift maxH lh z)
          ∧ logH mp.1 ≤ lh ∧ lh ≤ maxH)
          ∧ gen (logH mp.1) = gen maxH ^ 2 ^ (maxH - logH mp.1)) →
    ∀ (done : List (Mat F × F)) (st : RedSt F), StInv gen shift α b done st →
    ∃ st', openLoop gen shift α b invD rds st
        = some (st', rds.map fun rd =>
            (rd.mats.zip rd.points).map fun mp => mp.2.map (ysFor gen b shift mp.1))
      ∧ StInv gen shift α b (done ++ flatPairs rds) st' := by
  intro rds
  induction rds with
  | nil =>
    intro _ done st hinv
    exact ⟨st, rfl, by simpa [flatPairs] using hinv⟩
  | cons rd rds ih =>
    intro hrds done st hinv
    obtain ⟨st1, hstep, hinv1⟩ := processMats_inv gen shift α b maxH invD
      (rd.mats.zip rd.points) (hrds rd (by simp)) done st hinv
    obtain ⟨st2, hrest, hinv2⟩ := ih (fun q hq mp hmp => hrds q (by simp [hq]) mp hmp)
      (done ++ (rd.mats.zip rd.points).flatMap fun mp => mp.2.map fun z => (mp.1, z))
      st1 hinv1
    refine ⟨st2, ?_, ?_⟩
    · simp only [openLoop, hstep, hrest, List.map_cons]
    · have happ : (done ++ (rd.mats.zip rd.points).flatMap fun mp =>
            mp.2.map fun z => (mp.1, z)) ++ flatPairs rds
          = done ++ flatPairs (rd :: rds) := by
        simp [flatPairs]
      rwa [happ] at hinv2

/-- The initial reduction state satisfies the invariant with no pairs
processed. -/
theorem StInv_init {F : Type} [Field F] (gen : ℕ → F) (shift α : F) (b : ℕ) :
    StInv gen shift α b [] (initRedSt : RedSt F) := by
  refine ⟨⟨1, le_refl 1, ?_⟩, fun h => rfl, fun h l hl => Option.noConfusion hl,
    fun h _ p hp => absurd hp (List.not_mem_nil p)⟩
  simp [initRedSt, powList, List.range_succ]

theorem mem_flatPairs {F : Type} (rounds : List (Round F)) (rd : Round F)
    (mp : Mat F × List F) (z : F) (hrd : rd ∈ rounds)
    (hmp : mp ∈ rd.mats.zip rd.points) (hz : z ∈ mp.2) :
    (mp.1, z) ∈ flatPairs rounds := by
  rw [flatPairs]
  refine List.mem_flatMap.mpr ⟨rd, hrd, ?_⟩
  exact List.mem_flatMap.mpr ⟨mp, hmp, List.mem_map.mpr ⟨z, hz, rfl⟩⟩

theorem mapM_log2Strict_isSome : ∀ l : List ℕ, (∀ x ∈ l, 2 ^ log2n x = x) →
    ∃ ls, l.mapM log2Strict = some ls := by
  intro l
  induction l with
  | nil => exact fun _ => ⟨[], rfl⟩
  | cons x xs ih =>
    intro hx
    obtain ⟨ls, hls⟩ := ih fun y hy => hx y (by simp [hy])
    have h1 : log2Strict x = some (log2n x) := by
      rw [log2Strict, if_pos (hx x (by simp))]
    exact ⟨log2n x :: ls, by rw [List.mapM_cons, h1, hls]; rfl⟩

theorem matsLogHeights_isSome {F : Type} (rounds : List (Round F))
    (HM : ∀ rd ∈ rounds, ∀ mp ∈ rd.mats.zip rd.points,
      mp.1.height = 2 ^ logH mp.1) :
    ∃ ls, matsLogHeights rounds = some ls := by
  rw [matsLogHeights]
  refine mapM_log2Strict_isSome _ fun x hx => ?_
  obtain ⟨rd, hrd, hx2⟩ := List.mem_flatMap.mp hx
  obtain ⟨mp, hmp, hx3⟩ := List.mem_map.mp hx2
  subst hx3
  exact (HM rd hrd mp hmp).symm

/-- The combined behaviour of `open_multi_batches` on well-formed input: the
reduction loop succeeds, its state satisfies the invariant over all
`(matrix, point)` pairs, and the function returns the nested opened values
together with the proximity proof and per-query input openings. -/
theorem openMultiBatches_spec {F : Type} [Field F] [DecidableEq F] {P Q : Type}
    (gen : ℕ → F) (gG α : F) (b : ℕ)
    (friProve : (ℕ → Option (List F)) → P × List ℕ)
    (openBatch : ℕ → List (Mat F) → Q)
    (rounds : List (Round F)) (maxH : ℕ)
    (hmax : globalMaxLh rounds = some maxH)
    (HM : ∀ rd ∈ rounds, ∀ mp ∈ rd.mats.zip rd.points,
      mp.1.height = 2 ^ logH mp.1 ∧ logH mp.1 < 32
        ∧ ∀ row ∈ mp.1.rows, row.length = mp.1.width)
    (HC : ∀ p ∈ flatPairs rounds, ∀ q ∈ flatPairs rounds, logH p.1 ≤ logH q.1 →
      gen (logH p.1) = gen (logH q.1) ^ 2 ^ (logH q.1 - logH p.1)) :
    ∃ st, StInv gen (cosetShift gG) α b (flatPairs rounds) st
      ∧ openLoop gen (cosetShift gG) α b
          (fun z => (maxLhForPoint rounds z).map fun lh =>
            invTableFor gen (cosetShift gG) maxH lh z) rounds initRedSt
          = some (st, rounds.map fun rd =>
              (rd.mats.zip rd.points).map fun mp =>
                mp.2.map (ysFor gen b (cosetShift gG) mp.1))
      ∧ openMultiBatches gen gG α b friProve openBatch rounds
          = some (rounds.map fun rd =>
                (rd.mats.zip rd.points).map fun mp =>
                  mp.2.map (ysFor gen b (cosetShift gG) mp.1),
              (friProve st.ro).1,
              (friProve st.ro).2.map fun index =>
                rounds.map fun rd => openBatch index rd.mats) := by
  obtain ⟨qm, hqm, hqmH⟩ := globalMaxLh_attained rounds maxH hmax
  have hpack : ∀ rd ∈ rounds, ∀ mp ∈ rd.mats.zip rd.points,
      mp.1.height = 2 ^ logH mp.1 ∧ logH mp.1 < 32
      ∧ (∀ row ∈ mp.1.rows, row.length = mp.1.width)
      ∧ ∀ z ∈ mp.2, (∃ lh, (fun z => (maxLhForPoint rounds z).map fun lh =>
            invTableFor gen (cosetShift gG) maxH lh z) z
            = some (invTableFor gen (cosetShift gG) maxH lh z)
          ∧ logH mp.1 ≤ lh ∧ lh ≤ maxH)
          ∧ gen (logH mp.1) = gen maxH ^ 2 ^ (maxH - logH mp.1) := by
    intro rd hrd mp hmp
    obtain ⟨hh, h32, hrows⟩ := HM rd hrd mp hmp
    refine ⟨hh, h32, hrows, ?_⟩
    intro z hz
    have hmem : (mp.1, z) ∈ flatPairs rounds := mem_flatPairs rounds rd mp z hrd hmp hz
    obtain ⟨lh, hlh, hlh1, hlh2⟩ := maxLhForPoint_spec rounds mp.1 z hmem maxH hmax
    refine ⟨⟨lh, ?_, hlh1, hlh2⟩, ?_⟩
    · simp only [hlh, Option.map_some']
    · have := HC (mp.1, z) hmem qm hqm
        (by show logH mp.1 ≤ logH qm.1; rw [hqmH]; omega)
      rwa [hqmH] at this
  obtain ⟨st, hloop, hinv⟩ := openLoop_inv gen (cosetShift gG) α b maxH
    (fun z => (maxLhForPoint rounds z).map fun lh =>
      invTableFor gen (cosetShift gG) maxH lh z) rounds hpack [] initRedSt
    (StInv_init gen (cosetShift gG) α b)
  rw [List.nil_append] at hinv
  obtain ⟨ls, hls⟩ := matsLogHeights_isSome rounds
    fun rd hrd mp hmp => (HM rd hrd mp hmp).1
  refine ⟨st, hinv, hloop, ?_⟩
  simp only [openMultiBatches, hls, hmax, hloop]

/-- C2. After all rounds are processed by `open_multi_batches`'s
reduction loop, every created reduced-opening accumulator at log-height `h`
satisfies, at every row `r < 2^h`:
`acc[h][r] = Σ_{(matrix, z) at height h} α^offset · (Σ_j α^j ·
(table[r][j] − y_j)) / (x_r − z)`, where `x_r` is the `r`-th element of the
bit-reversed coset, `y_j` the opened value of column `j` at `z`, and `offset`
the total column count consumed at height `h` by all previously processed
`(matrix, point)` pairs — distinct contributions at one height occupy
disjoint alpha-power ranges.  Hypotheses: at least one point is requested,
heights are powers of two below `2^32`, rows have their matrix's width (the
`RowMajorMatrix` well-formedness invariant), and the two-adic generator
family is coherent across the occurring heights (the `TwoAdicField`
contract). -/
theorem open_reduced_openings_formula {F : Type} [Field F] [DecidableEq F]
    (gen : ℕ → F) (gG α : F) (b : ℕ) (rounds : List (Round F)) (maxH : ℕ)
    (hmax : globalMaxLh rounds = some maxH)
    (HM : ∀ rd ∈ rounds, ∀ mp ∈ rd.mats.zip rd.points,
      mp.1.height = 2 ^ logH mp.1 ∧ logH mp.1 < 32
        ∧ ∀ row ∈ mp.1.rows, row.length = mp.1.width)
    (HC : ∀ p ∈ flatPairs rounds, ∀ q ∈ flatPairs rounds, logH p.1 ≤ logH q.1 →
      gen (logH p.1) = gen (logH q.1) ^ 2 ^ (logH q.1 - logH p.1)) :
    ∃ st out, openLoop gen (cosetShift gG) α b
        (fun z => (maxLhForPoint rounds z).map fun lh =>
          invTableFor gen (cosetShift gG) maxH lh z) rounds initRedSt
        = some (st, out)
      ∧ ∀ h l, st.ro h = some l →
          l.length = 2 ^ h ∧
          ∀ r < 2 ^ h, l.getD r 0
            = accSpec gen (cosetShift gG) α b h r (flatPairs rounds) 0 := by
  obtain ⟨st, hinv, hloop, _⟩ := openMultiBatches_spec gen gG α b
    (fun _ => ((), ([] : List ℕ))) (fun _ _ => ()) rounds maxH hmax HM HC
  exact ⟨st, _, hloop, fun h l hl => hinv.2.2.1 h l hl⟩

/-- C6. The pair returned by `open_multi_batches` has the contracted
shape and order: the opened values are nested round → matrix → point →
column, in exactly the order the rounds, zipped matrices, and points appear
in the input, each innermost list holding one entry per matrix column; the
proof bundle holds the proximity proof plus, for each query index the
proximity prover returns, in order, one opening record per round in round
order, produced by `open_batch` at that query index on the round's prover
data. -/
theorem open_multi_batches_output_shape {F : Type} [Field F] [DecidableEq F]
    {P Q : Type} (gen : ℕ → F) (gG α : F) (b : ℕ)
    (friProve : (ℕ → Option (List F)) → P × List ℕ)
    (openBatch : ℕ → List (Mat F) → Q)
    (rounds : List (Round F)) (maxH : ℕ)
    (hmax : globalMaxLh rounds = some maxH)
    (HM : ∀ rd ∈ rounds, ∀ mp ∈ rd.mats.zip rd.points,
      mp.1.height = 2 ^ logH mp.1 ∧ logH mp.1 < 32
        ∧ ∀ row ∈ mp.1.rows, row.length = mp.1.width)
    (HC : ∀ p ∈ flatPairs rounds, ∀ q ∈ flatPairs rounds, logH p.1 ≤ logH q.1 →
      gen (logH p.1) = gen (logH q.1) ^ 2 ^ (logH q.1 - logH p.1)) :
    (∀ (m : Mat F) (z : F), (ysFor gen b (cosetShift gG) m z).length = m.width)
    ∧ ∃ st : RedSt F, openMultiBatches gen gG α b friProve openBatch rounds
        = some (rounds.map fun rd =>
              (rd.mats.zip rd.points).map fun mp =>
                mp.2.map (ysFor gen b (cosetShift gG) mp.1),
            (friProve st.ro).1,
            (friProve st.ro).2.map fun index =>
              rounds.map fun rd => openBatch index rd.mats) := by
  refine ⟨fun m z => ysFor_length gen b (cosetShift gG) m z, ?_⟩
  obtain ⟨st, _, _, hmain⟩ := openMultiBatches_spec gen gG α b friProve openBatch
    rounds maxH hmax HM HC
  exact ⟨st, hmain⟩

/-! ### Panic propagation for out-of-range heights and missing points -/

theorem log2Strict_eq_some {n k : ℕ} (h : log2Strict n = some k) :
    k = log2n n := by
  rw [log2Strict] at h
  split_ifs at h
  injection h with h
  exact h.symm

theorem processMat_none_of_big {F : Type} [Field F] (gen : ℕ → F) (shift α : F)
    (b : ℕ) (invD : F → Option (List F)) (mp : Mat F × List F)
    (h32 : 32 ≤ logH mp.1) (st : RedSt F) :
    processMat gen shift α b invD mp st = none := by
  simp only [processMat]
  cases hls : log2Strict mp.1.height with
  | none => rfl
  | some h =>
    have hlog : h = log2n mp.1.height := log2Strict_eq_some hls
    subst hlog
    dsimp only
    rw [if_neg (by rw [show log2n mp.1.height = logH mp.1 from rfl]; omega)]

theorem processMats_none_of_big {F : Type} [Field F] (gen : ℕ → F) (shift α : F)
    (b : ℕ) (invD : F → Option (List F)) :
    ∀ mps : List (Mat F × List F), (∃ mp ∈ mps, 32 ≤ logH mp.1) →
    ∀ st : RedSt F, processMats gen shift α b invD mps st = none := by
  intro mps
  induction mps with
  | nil =>
    rintro ⟨mp, hmp, _⟩
    exact absurd hmp (List.not_mem_nil mp)
  | cons q mps ih =>
    rintro ⟨mp, hmp, hbig⟩ st
    rcases List.mem_cons.mp hmp with hcase | hcase
    · subst hcase
      simp only [processMats, processMat_none_of_big gen shift α b invD mp hbig st]
    · simp only [processMats]
      cases hq : processMat gen shift α b invD q st with
      | none => rfl
      | some pr =>
        obtain ⟨st1, out1⟩ := pr
        dsimp only
        rw [ih ⟨mp, hcase, hbig⟩ st1]

theorem openLoop_none_of_big {F : Type} [Field F] (gen : ℕ → F) (shift α : F)
    (b : ℕ) (invD : F → Option (List F)) :
    ∀ rds : List (Round F),
      (∃ rd ∈ rds, ∃ mp ∈ rd.mats.zip rd.points, 32 ≤ logH mp.1) →
    ∀ st : RedSt F, openLoop gen shift α b invD rds st = none := by
  intro rds
  induction rds with
  | nil =>
    rintro ⟨rd, hrd, _⟩
    exact absurd hrd (List.not_mem_nil rd)
  | cons rd rds ih =>
    rintro ⟨rd', hrd', mp, hmp, hbig⟩ st
    rcases List.mem_cons.mp hrd' with hcase | hcase
    · subst hcase
      simp only [openLoop,
        processMats_none_of_big gen shift α b invD (rd'.mats.zip rd'.points)
          ⟨mp, hmp, hbig⟩ st]
    · simp only [openLoop]
      cases hq : processMats gen shift α b invD (rd.mats.zip rd.points) st with
      | none => rfl
      | some pr =>
        obtain ⟨st1, out1⟩ := pr
        dsimp only
        rw [ih ⟨rd', hcase, mp, hmp, hbig⟩ st1]

/-- C9. The supported log-height range is bounded by 32.  For every
opening call whose matrices all have height `2^k` with `k < 32` (and at least
one requested point, well-formed row widths, coherent generators), every
access to the 32-slot per-height state is in bounds — the reduction loop
completes — and the accumulator created for log-height `k` has length exactly
`2^k`; while a call containing a matrix of log-height `≥ 32` panics
(`none`): it is outside the supported range. -/
theorem open_height_bound_32 {F : Type} [Field F] [DecidableEq F] {P Q : Type}
    (gen : ℕ → F) (gG α : F) (b : ℕ)
    (friProve : (ℕ → Option (List F)) → P × List ℕ)
    (openBatch : ℕ → List (Mat F) → Q) :
    ∀ rounds : List (Round F),
    (∀ maxH, globalMaxLh rounds = some maxH →
      (∀ rd ∈ rounds, ∀ mp ∈ rd.mats.zip rd.points,
        mp.1.height = 2 ^ logH mp.1 ∧ logH mp.1 < 32
          ∧ ∀ row ∈ mp.1.rows, row.length = mp.1.width) →
      (∀ p ∈ flatPairs rounds, ∀ q ∈ flatPairs rounds, logH p.1 ≤ logH q.1 →
        gen (logH p.1) = gen (logH q.1) ^ 2 ^ (logH q.1 - logH p.1)) →
      ∃ st out, openLoop gen (cosetShift gG) α b
          (fun z => (maxLhForPoint rounds z).map fun lh =>
            invTableFor gen (cosetShift gG) maxH lh z) rounds initRedSt
          = some (st, out)
        ∧ ∀ h l, st.ro h = some l → l.length = 2 ^ h)
    ∧ ((∃ rd ∈ rounds, ∃ mp ∈ rd.mats.zip rd.points, 32 ≤ logH mp.1) →
        openMultiBatches gen gG α b friProve openBatch rounds = none) := by
  intro rounds
  constructor
  · intro maxH hmax HM HC
    obtain ⟨st, hinv, hloop, _⟩ := openMultiBatches_spec gen gG α b friProve openBatch
      rounds maxH hmax HM HC
    exact ⟨st, _, hloop, fun h l hl => (hinv.2.2.1 h l hl).1⟩
  · intro hbig
    simp only [openMultiBatches]
    cases hml : matsLogHeights rounds with
    | none => rfl
    | some ls =>
      cases hgm : globalMaxLh rounds with
      | none => rfl
      | some maxH =>
        dsimp only
        rw [openLoop_none_of_big gen (cosetShift gG) α b _ rounds hbig initRedSt]

/-- C10. `open_multi_batches` requires at least one requested opening
point across all rounds and matrices: when every matrix's point list is
empty, the point-to-height map is empty and the code unwraps
`values().max()` of an empty map — the call panics (`none`) instead of
returning an empty result, an undocumented precondition of the public
interface. -/
theorem open_multi_batches_empty_points_panics {F : Type} [Field F] [DecidableEq F]
    {P Q : Type} (gen : ℕ → F) (gG α : F) (b : ℕ)
    (friProve : (ℕ → Option (List F)) → P × List ℕ)
    (openBatch : ℕ → List (Mat F) → Q)
    (rounds : List (Round F))
    (hempty : ∀ rd ∈ rounds, ∀ pts ∈ rd.points, pts = []) :
    openMultiBatches gen gG α b friProve openBatch rounds = none := by
  have hfp : flatPairs rounds = [] := by
    rw [flatPairs]
    refine List.flatMap_eq_nil_iff.mpr fun rd hrd => ?_
    refine List.flatMap_eq_nil_iff.mpr fun mp hmp => ?_
    rw [hempty rd hrd mp.2 (List.of_mem_zip hmp).2]
    rfl
  have hmax : globalMaxLh rounds = none := by
    rw [globalMaxLh, hfp]
    rfl
  simp only [openMultiBatches]
  cases hml : matsLogHeights rounds with
  | none => rfl
  | some ls => rw [hmax]

/-- C4, amended. `open_multi_batches` performs no defensive check that a
requested point avoids the evaluation domain: under the well-formedness
hypotheses it returns a result (`isSome`) whether or not some requested `z`
equals a domain point — its signature has no error channel — and, with batch
inversion modelled from the spec as elementwise field inversion, the
inverse-denominator table entry computed for a `z` equal to a domain element
is the zero inverse `(x − z)⁻¹ = 0⁻¹ = 0`, consumed silently by the
reduction. -/
theorem open_no_domain_point_check {F : Type} [Field F] [DecidableEq F]
    {P Q : Type} (gen : ℕ → F) (gG α : F) (b : ℕ)
    (friProve : (ℕ → Option (List F)) → P × List ℕ)
    (openBatch : ℕ → List (Mat F) → Q)
    (rounds : List (Round F)) (maxH : ℕ)
    (hmax : globalMaxLh rounds = some maxH)
    (HM : ∀ rd ∈ rounds, ∀ mp ∈ rd.mats.zip rd.points,
      mp.1.height = 2 ^ logH mp.1 ∧ logH mp.1 < 32
        ∧ ∀ row ∈ mp.1.rows, row.length = mp.1.width)
    (HC : ∀ p ∈ flatPairs rounds, ∀ q ∈ flatPairs rounds, logH p.1 ≤ logH q.1 →
      gen (logH p.1) = gen (logH q.1) ^ 2 ^ (logH q.1 - logH p.1)) :
    (openMultiBatches gen gG α b friProve openBatch rounds).isSome = true
    ∧ ∀ (z : F) (H lh r : ℕ), r < 2 ^ lh → lh ≤ H →
        z = cosetShift gG * gen H ^ bitrev H r →
        (invTableFor gen (cosetShift gG) H lh z).getD r 0 = 0 := by
  constructor
  · obtain ⟨st, _, _, hmain⟩ := openMultiBatches_spec gen gG α b friProve openBatch
      rounds maxH hmax HM HC
    rw [hmain]
    rfl
  · intro z H lh r hr hlh hz
    rw [invTableFor_getD gen (cosetShift gG) H lh r z hr hlh, hz, sub_self, inv_zero]

/-! ### Concrete instances over GF(17)

`3` generates the multiplicative group of `GF(17)` (order 16), so `GF(17)`
is a two-adic field with `two_adic_generator k = 3 ^ 2^(4-k)`. -/

instance : Fact (Nat.Prime 17) := ⟨by norm_num⟩

/-- A coherent two-adic generator family in `GF(17)`: `g17 4 = 3` has
order `16` and each `g17 k` is the square of `g17 (k+1)`
(`1, 16, 13, 9, 3`). -/
def g17 : ℕ → ZMod 17 := fun k =>
  if k = 0 then 1 else if k = 1 then 16 else if k = 2 then 13
  else if k = 3 then 9 else 3

/-- A concrete committed 2×1 matrix. -/
def mat2 : Mat (ZMod 17) := ⟨1, [[1], [2]]⟩

/-- One round: the single committed matrix opened at the point `5`. -/
def round2 : Round (ZMod 17) := ⟨[mat2], [[5]]⟩

/-- A trivial stand-in for the external proximity prover: proof `()`, one
query index `0`. -/
def friProve0 : (ℕ → Option (List (ZMod 17))) → Unit × List ℕ := fun _ => ((), [0])

/-- A trivial stand-in for the external `open_batch`: records the query
index. -/
def openBatch0 : ℕ → List (Mat (ZMod 17)) → ℕ := fun i _ => i

theorem opened_value_eq_lagrange_subtable_witness :
    (ysFor g17 1 (cosetShift 3)
        (bitrevMat (ldeBatch g17 1 (cosetShift 3 / 1) ⟨1, [[5], [7]]⟩)) 2).getD 0 0
      = lagrangeEval (2 ^ 1) (fun i => 3 * g17 (1 + 1) ^ i)
          (fun i => ((ldeBatch g17 1 3 ⟨1, [[5], [7]]⟩).rows.getD i []).getD 0 0) 2 :=
  opened_value_eq_lagrange_subtable g17 3 1 1 ⟨1, [[5], [7]]⟩ 2 0 (by decide)
    (by decide) (by decide) (by decide) (by decide) (by decide)
    (bitrevMat (ldeBatch g17 1 (cosetShift 3 / 1) ⟨1, [[5], [7]]⟩))
    (List.mem_singleton.mpr rfl)

theorem open_reduced_openings_formula_witness :
    ∃ st out, openLoop g17 (cosetShift 3) 2 1
        (fun z => (maxLhForPoint [round2] z).map fun lh =>
          invTableFor g17 (cosetShift 3) 1 lh z) [round2] initRedSt
        = some (st, out)
      ∧ ∀ h l, st.ro h = some l →
          l.length = 2 ^ h ∧
          ∀ r < 2 ^ h, l.getD r 0
            = accSpec g17 (cosetShift 3) 2 1 h r (flatPairs [round2]) 0 :=
  open_reduced_openings_formula g17 3 2 1 [round2] 1 (by decide) (by decide)
    (by decide)

theorem open_multi_batches_output_shape_witness :
    (∀ (m : Mat (ZMod 17)) (z : ZMod 17),
      (ysFor g17 1 (cosetShift 3) m z).length = m.width)
    ∧ ∃ st : RedSt (ZMod 17),
        openMultiBatches g17 3 2 1 friProve0 openBatch0 [round2]
        = some ([round2].map fun rd =>
              (rd.mats.zip rd.points).map fun mp =>
                mp.2.map (ysFor g17 1 (cosetShift 3) mp.1),
            (friProve0 st.ro).1,
            (friProve0 st.ro).2.map fun index =>
              [round2].map fun rd => openBatch0 index rd.mats) :=
  open_multi_batches_output_shape g17 3 2 1 friProve0 openBatch0 [round2] 1
    (by decide) (by decide) (by decide)

theorem open_height_bound_32_witness :
    ∃ st out, openLoop g17 (cosetShift 3) 2 1
        (fun z => (maxLhForPoint [round2] z).map fun lh =>
          invTableFor g17 (cosetShift 3) 1 lh z) [round2] initRedSt
        = some (st, out)
      ∧ ∀ h l, st.ro h = some l → l.length = 2 ^ h :=
  (open_height_bound_32 g17 3 2 1 friProve0 openBatch0 [round2]).1 1 (by decide)
    (by decide) (by decide)

theorem open_multi_batches_empty_points_panics_witness :
    openMultiBatches g17 3 2 1 friProve0 openBatch0 [⟨[mat2], [[]]⟩] = none :=
  open_multi_batches_empty_points_panics g17 3 2 1 friProve0 openBatch0
    [⟨[mat2], [[]]⟩] (by decide)

/-- The behaviour claim C4 asserts is false at a concrete input: the point
`3` is an element of the evaluation domain actually used (the size-2
bit-reversed coset with shift `3`), yet `open_multi_batches` does not detect
or reject the request — it returns a result. -/
theorem open_domain_point_not_rejected :
    (3 : ZMod 17) ∈ bitrevCoset g17 (cosetShift 3) 1
    ∧ (openMultiBatches g17 3 2 1 friProve0 openBatch0
        [⟨[mat2], [[3]]⟩]).isSome = true := by
  refine ⟨by decide, ?_⟩
  obtain ⟨st, _, _, hmain⟩ := openMultiBatches_spec g17 3 2 1 friProve0 openBatch0
    [⟨[mat2], [[3]]⟩] 1 (by decide) (by decide) (by decide)
  rw [hmain]
  rfl

theorem open_no_domain_point_check_witness :
    (openMultiBatches g17 3 2 1 friProve0 openBatch0 [⟨[mat2], [[3]]⟩]).isSome = true
    ∧ ∀ (z : ZMod 17) (H lh r : ℕ), r < 2 ^ lh → lh ≤ H →
        z = cosetShift 3 * g17 H ^ bitrev H r →
        (invTableFor g17 (cosetShift 3) H lh z).getD r 0 = 0 :=
  open_no_domain_point_check g17 3 2 1 friProve0 openBatch0 [⟨[mat2], [[3]]⟩] 1
    (by decide) (by decide) (by decide)

theorem commit_shifted_batches_spec_witness :
    ∃ cm : Mat (ZMod 17), (commitShiftedBatches g17 3 1 [mat2] 2)[0]? = some cm ∧
      cm.width = mat2.width ∧
      cm.height = mat2.height * 2 ^ 1 ∧
      ∀ i, i < mat2.height * 2 ^ 1 →
        cm.rows.getD i [] =
          (ldeBatch g17 1 ((3 : ZMod 17) / 2) mat2).rows.getD
            (bitrev (log2n (mat2.height * 2 ^ 1)) i) [] :=
  (commit_shifted_batches_spec g17 3 1 [mat2] 2).2.2.2 0 mat2 rfl

theorem inv_denoms_truncation_compat_witness :
    (bitrevCoset g17 3 2).take (2 ^ 1) = bitrevCoset g17 3 1 ∧
    ((bitrevCoset g17 3 2).map fun x => (x - 5)⁻¹).take (2 ^ 1)
      = ((bitrevCoset g17 3 1).map fun x => (x - 5)⁻¹) ∧
    invTableFor g17 3 2 1 5 = ((bitrevCoset g17 3 1).map fun x => (x - 5)⁻¹) :=
  inv_denoms_truncation_compat g17 3 5 1 2 (by decide) (by decide)

theorem get_cached_powers_spec_witness :
    powList (2 : ZMod 17) 1 = [1] ∧
    getCachedPowers (2 : ZMod 17) (powList 2 1) 3
      = some (powList 2 (max 1 3), powList 2 3) ∧
    1 ≤ (powList (2 : ZMod 17) (max 1 3)).length ∧
    (∀ i < max 1 3, (powList (2 : ZMod 17) (max 1 3)).getD i 0 = 2 ^ i) :=
  get_cached_powers_spec (2 : ZMod 17) 1 3 (by decide)
